import Mathlib

/-!
Verification of the route-planning and grid-pathfinding core of the
fe-wastwatcher repository (`public/map/reference.py` and
`public/map/multifloor_reference.py`).

The Python sources are embedded shallowly:
* the module-level mutable grid `blocked` becomes an explicit `Grid`
  argument (a total function on positions; the source only ever reads it
  after an in-bounds check);
* the `heapq` priority queue becomes a list together with a
  "pop the least element" operation (Python's heap pops the unique least
  tuple under lexicographic comparison; equal tuples are identical values,
  so popping the leftmost least element is observationally identical);
* the unbounded `while` loops become fuel-indexed recursions returning
  `Option`, with `none` for fuel exhaustion; the fuel `FUEL` is proved
  sufficient for every input, so the embedded functions never return
  `none`;
* Python `dict`s become functions into `Option`, Python floats holding
  percentages become rationals.
-/

namespace WasteWatcher

/-- Grid width, from `GRID_W, GRID_H = 35, 20` in both source files. -/
def GRID_W : Int := 35

/-- Grid height, from `GRID_W, GRID_H = 35, 20` in both source files. -/
def GRID_H : Int := 20

/-- A grid cell, a pair of Python ints. -/
abbrev Pos := Int × Int

/-- The obstacle classification: `blocked[x, y]`. -/
abbrev Grid := Pos → Bool

/-- `0 <= x < GRID_W and 0 <= y < GRID_H`, the bounds check used
throughout both sources. -/
def inBoundsB (p : Pos) : Bool :=
  decide (0 ≤ p.1 ∧ p.1 < GRID_W ∧ 0 ≤ p.2 ∧ p.2 < GRID_H)

/-- A cell that is inside the grid and not blocked. -/
def validP (bl : Grid) (p : Pos) : Prop :=
  inBoundsB p = true ∧ bl p = false

instance (bl : Grid) (p : Pos) : Decidable (validP bl p) :=
  inferInstanceAs (Decidable (inBoundsB p = true ∧ bl p = false))

/-- `SERVICE_PAUSE_SEC = 4`. -/
def SERVICE_PAUSE_SEC : Nat := 4

/-- `QUICK_CHECK_SEC = 1`. -/
def QUICK_CHECK_SEC : Nat := 1

/-- `FPS = 8`. -/
def FPS : Nat := 8

/-- `THRESHOLD = 0.80`. -/
def THRESHOLD : Rat := 0.80

/-- `THRESHOLD_PCT = THRESHOLD * 100.0`. -/
def THRESHOLD_PCT : Rat := THRESHOLD * 100

/-- `START_POS = (1, 19)`. -/
def START_POS : Pos := (1, 19)

/-- `END_POS = (1, 19)` (an optional cell; `None` means no return leg). -/
def END_POS : Option Pos := some (1, 19)

/-- Overwrite one cell of the grid with `true` (a `blocked[x, y] = True`
assignment). -/
def setBlocked (g : Grid) (p : Pos) : Grid :=
  fun q => if q = p then true else g q

/-- Python `range(a, b)` over machine integers. -/
def intRange (a b : Int) : List Int :=
  (List.range (b - a).toNat).map fun (i : Nat) => a + (i : Int)

/-- `block_rect(x, y, w, h)` from both sources: every cell of the
rectangle that passes the bounds check is marked blocked; cells failing
the check are skipped. -/
def block_rect (g : Grid) (x y w h : Int) : Grid :=
  (intRange x (x + w)).foldl
    (fun g1 xx =>
      (intRange y (y + h)).foldl
        (fun g2 yy => if inBoundsB (xx, yy) then setBlocked g2 (xx, yy) else g2)
        g1)
    g

/-- `block_hline(x0, x1, y)` from both sources. -/
def block_hline (g : Grid) (x0 x1 y : Int) : Grid :=
  (intRange (min x0 x1) (max x0 x1 + 1)).foldl
    (fun g1 xx => if inBoundsB (xx, y) then setBlocked g1 (xx, y) else g1)
    g

/-- `block_vline(x, y0, y1)` from both sources. -/
def block_vline (g : Grid) (x y0 y1 : Int) : Grid :=
  (intRange (min y0 y1) (max y0 y1 + 1)).foldl
    (fun g1 yy => if inBoundsB (x, yy) then setBlocked g1 (x, yy) else g1)
    g

/-- Manhattan distance, the heuristic `h` of `astar` and the key of the
nearest-neighbour selection. -/
def manhattan (p q : Pos) : Nat :=
  (p.1 - q.1).natAbs + (p.2 - q.2).natAbs

/-- Axis adjacency: the four-neighbour relation of the grid graph. -/
def Adj (p q : Pos) : Prop := manhattan p q = 1

instance (p q : Pos) : Decidable (Adj p q) :=
  inferInstanceAs (Decidable (manhattan p q = 1))

/-- The neighbour offsets `[(1,0),(-1,0),(0,1),(0,-1)]` applied to a
cell, in source order. -/
def neighbors (p : Pos) : List Pos :=
  [(p.1 + 1, p.2), (p.1 - 1, p.2), (p.1, p.2 + 1), (p.1, p.2 - 1)]

/-- A search path of the grid graph: it starts at `s`, ends at `t`,
moves along axis-adjacent cells, and every cell after the first is
in-bounds and passable (the searches never test their own start cell). -/
def Walk (bl : Grid) (s t : Pos) (l : List Pos) : Prop :=
  l.head? = some s ∧ l.getLast? = some t ∧ List.Chain' Adj l ∧
    ∀ p ∈ l.tail, validP bl p

/-- Executable adjacency-chain check, used only to decide `Walk` on
concrete lists. -/
def chainB : List Pos → Bool
  | [] => true
  | [_] => true
  | a :: b :: t => decide (Adj a b) && chainB (b :: t)

instance (bl : Grid) (s t : Pos) (l : List Pos) : Decidable (Walk bl s t l) :=
  decidable_of_iff (l.head? = some s ∧ l.getLast? = some t ∧
    chainB l = true ∧ ∀ p ∈ l.tail, validP bl p) (by
    have hc : ∀ m : List Pos, chainB m = true ↔ List.Chain' Adj m := by
      intro m
      induction m with
      | nil => simp [chainB]
      | cons a t2 ih =>
        cases t2 with
        | nil => simp [chainB]
        | cons b t3 =>
          rw [chainB, List.chain'_cons, Bool.and_eq_true, decide_eq_true_eq, ih]
    unfold Walk
    rw [hc])

/-- `t` is reachable from `s` on the grid. -/
def Reach (bl : Grid) (s t : Pos) : Prop := ∃ l, Walk bl s t l

/-- The least edge count of a walk from `s` to `t` (meaningful when
`Reach bl s t`). -/
noncomputable def dE (bl : Grid) (s t : Pos) : Nat :=
  sInf {n | ∃ l, Walk bl s t l ∧ l.length = n + 1}

/-! ### Priority-queue model -/

/-- Lexicographic strict order on cells, as Python compares `(x, y)`
tuples. -/
def posLt (p q : Pos) : Prop := p.1 < q.1 ∨ (p.1 = q.1 ∧ p.2 < q.2)

/-- Lexicographic weak order on cells. -/
def posLe (p q : Pos) : Prop := p.1 < q.1 ∨ (p.1 = q.1 ∧ p.2 ≤ q.2)

instance (p q : Pos) : Decidable (posLt p q) := by unfold posLt; infer_instance
instance (p q : Pos) : Decidable (posLe p q) := by unfold posLe; infer_instance

/-- Order on the parent slot of an A* heap entry.  Python would compare
the two parents only when `f`, `g` and the cell all tie; the `g` values
of distinct pushes of one cell are strictly decreasing, so this
comparison is never reached and any total order is observationally
faithful (`none` is placed first). -/
def oparLe (a b : Option Pos) : Prop :=
  match a, b with
  | none, _ => True
  | some _, none => False
  | some p, some q => posLe p q

instance (a b : Option Pos) : Decidable (oparLe a b) := by
  unfold oparLe
  rcases a with _ | p <;> rcases b with _ | q <;> infer_instance

/-- A* heap entry `(f, g, cell, parent)`. -/
abbrev AEntry := Nat × Nat × Pos × Option Pos

/-- Lexicographic order on A* heap entries, as Python orders the tuples
`(f, g, cur, parent)`. -/
def aLe (e1 e2 : AEntry) : Prop :=
  e1.1 < e2.1 ∨ (e1.1 = e2.1 ∧
    (e1.2.1 < e2.2.1 ∨ (e1.2.1 = e2.2.1 ∧
      (posLt e1.2.2.1 e2.2.2.1 ∨ (e1.2.2.1 = e2.2.2.1 ∧
        oparLe e1.2.2.2 e2.2.2.2)))))

instance (e1 e2 : AEntry) : Decidable (aLe e1 e2) := by
  unfold aLe; infer_instance

/-- Dijkstra heap entry `(d, cell)`. -/
abbrev DEntry := Nat × Pos

/-- Lexicographic order on Dijkstra heap entries `(d, cur)`. -/
def dLe (e1 e2 : DEntry) : Prop :=
  e1.1 < e2.1 ∨ (e1.1 = e2.1 ∧ posLe e1.2 e2.2)

instance (e1 e2 : DEntry) : Decidable (dLe e1 e2) := by
  unfold dLe; infer_instance

/-- The least element of a list under a total preorder (leftmost among
ties). -/
def minimumBy {α : Type} (le : α → α → Prop) [DecidableRel le] :
    List α → Option α
  | [] => none
  | a :: as =>
    match minimumBy le as with
    | none => some a
    | some m => some (if le a m then a else m)

/-- `heappop`: remove and return the least element of the queue.  The
Python heap returns the least tuple; among equal (hence identical)
tuples any occurrence may go, so removing the first occurrence of the
least value is observationally identical. -/
def popMin {α : Type} (le : α → α → Prop) [DecidableRel le] [DecidableEq α]
    (l : List α) : Option (α × List α) :=
  match minimumBy le l with
  | none => none
  | some m => some (m, l.erase m)

/-! ### A* (`astar` in both sources) -/

/-- The `gscore` dict. -/
abbrev Gscore := Pos → Option Nat

/-- The `came` dict (cell ↦ recorded parent, which may be `None`). -/
abbrev Came := Pos → Option (Option Pos)

/-- One relaxation step of `astar`'s neighbour loop: bounds check,
obstacle check, then `(nx,ny) not in gscore or ng < gscore[(nx,ny)]`. -/
def relaxA (bl : Grid) (goal : Pos) (g : Nat) (cur : Pos)
    (st : List AEntry × Gscore) (n : Pos) : List AEntry × Gscore :=
  if inBoundsB n = true ∧ bl n = false then
    let ng := g + 1
    let ok := match st.2 n with
      | none => true
      | some old => decide (ng < old)
    if ok then
      ((ng + manhattan n goal, ng, n, some cur) :: st.1,
        fun p => if p = n then some ng else st.2 p)
    else st
  else st

/-- The full neighbour loop of one `astar` expansion. -/
def expandA (bl : Grid) (goal : Pos) (heap : List AEntry) (gs : Gscore)
    (g : Nat) (cur : Pos) : List AEntry × Gscore :=
  (neighbors cur).foldl (relaxA bl goal g cur) (heap, gs)

/-- `astar`'s parent-chain reconstruction: follow `came` until a `None`
parent; a missing key (Python `KeyError`, proved unreachable) is `none`.
The fuel is the recorded `g` plus one, proved sufficient. -/
def chainA (came : Came) : Nat → Pos → Option (List Pos)
  | 0, _ => none
  | fuel + 1, p =>
    match came p with
    | none => none
    | some none => some [p]
    | some (some q) => (chainA came fuel q).map (fun l => p :: l)

/-- The `while openh:` loop of `astar`. -/
def astarLoop (bl : Grid) (goal : Pos) :
    Nat → List AEntry → Came → Gscore → List Pos → Option (List Pos)
  | 0, _, _, _, _ => none
  | fuel + 1, heap, came, gs, visited =>
    match popMin aLe heap with
    | none => some []
    | some (e, rest) =>
      let g := e.2.1
      let cur := e.2.2.1
      let par := e.2.2.2
      if cur ∈ visited then astarLoop bl goal fuel rest came gs visited
      else
        let came1 : Came := fun p => if p = cur then some par else came p
        if cur = goal then (chainA came1 (g + 1) cur).map List.reverse
        else
          let hg := expandA bl goal rest gs g cur
          astarLoop bl goal fuel hg.1 came1 hg.2 (cur :: visited)

/-- Fuel for the search loops; `astar_total`/`dijkstra_total` prove it
is never exhausted on the 35×20 grid. -/
def FUEL : Nat := 4000

/-- `astar(start, goal)`: A* on the four-neighbour grid with unit edge
cost and the Manhattan heuristic. -/
def astar (bl : Grid) (start goal : Pos) : Option (List Pos) :=
  if start = goal then some [start]
  else
    astarLoop bl goal FUEL [(manhattan start goal, 0, start, none)]
      (fun _ => none) (fun p => if p = start then some 0 else none) []

/-! ### Dijkstra (`dijkstra` in `reference.py`) -/

/-- The `dist` dict (`dist.get(p, math.inf)` reads it with an infinite
default). -/
abbrev Dist := Pos → Option Nat

/-- The `prev` dict. -/
abbrev Prev := Pos → Option Pos

/-- One relaxation step of `dijkstra`'s neighbour loop:
`nd < dist.get((nx,ny), math.inf)`. -/
def relaxD (bl : Grid) (d : Nat) (cur : Pos)
    (st : List DEntry × Dist × Prev) (n : Pos) : List DEntry × Dist × Prev :=
  if inBoundsB n = true ∧ bl n = false then
    let nd := d + 1
    let ok := match st.2.1 n with
      | none => true
      | some dv => decide (nd < dv)
    if ok then
      ((nd, n) :: st.1,
        fun p => if p = n then some nd else st.2.1 p,
        fun p => if p = n then some cur else st.2.2 p)
    else st
  else st

/-- The full neighbour loop of one `dijkstra` expansion. -/
def expandD (bl : Grid) (pq : List DEntry) (dist : Dist) (prev : Prev)
    (d : Nat) (cur : Pos) : List DEntry × Dist × Prev :=
  (neighbors cur).foldl (relaxD bl d cur) (pq, dist, prev)

/-- `dijkstra`'s reconstruction loop
`while p in prev or p == start: path.append(p); if p == start: break; p = prev[p]`;
falling out of the loop early (a truncated chain) returns the cells
collected so far. -/
def chainD (prev : Prev) (start : Pos) : Nat → Pos → Option (List Pos)
  | 0, _ => none
  | fuel + 1, p =>
    match prev p with
    | some q =>
        if p = start then some [p]
        else (chainD prev start fuel q).map (fun l => p :: l)
    | none => if p = start then some [p] else some []

/-- The `while pq:` loop of `dijkstra`. -/
def dijkstraLoop (bl : Grid) (goal start : Pos) :
    Nat → List DEntry → Dist → Prev → List Pos → Option (List Pos)
  | 0, _, _, _, _ => none
  | fuel + 1, pq, dist, prev, visited =>
    match popMin dLe pq with
    | none => some []
    | some (e, rest) =>
      let d := e.1
      let cur := e.2
      if cur ∈ visited then dijkstraLoop bl goal start fuel rest dist prev visited
      else
        if cur = goal then (chainD prev start (d + 1) cur).map List.reverse
        else
          let t := expandD bl rest dist prev d cur
          dijkstraLoop bl goal start fuel t.1 t.2.1 t.2.2 (cur :: visited)

/-- `dijkstra(start, goal)`. -/
def dijkstra (bl : Grid) (start goal : Pos) : Option (List Pos) :=
  if start = goal then some [start]
  else
    dijkstraLoop bl goal start FUEL [(0, start)]
      (fun p => if p = start then some 0 else none) (fun _ => none) []

/-- `pf = astar if pathfinder == "astar" else dijkstra`. -/
def findPath (bl : Grid) (alg : String) (s g : Pos) : Option (List Pos) :=
  if alg = "astar" then astar bl s g else dijkstra bl s g

/-! ### Clusters and route strategies -/

/-- A cluster record: name, zone category, representative service
position, fill percentage (injected per run; a rational stands in for
the Python float, all comparisons being with decimal constants). -/
structure Cluster where
  name : String
  zone : String
  service : Pos
  pct : Rat

/-- `[tuple(c["service"]) for c in CLUSTERS if pct >= threshold_pct]`:
the DUE service positions in cluster enumeration order. -/
def duePoints (cs : List Cluster) (thresholdPct : Rat) : List Pos :=
  (cs.filter fun c => thresholdPct ≤ c.pct).map fun c => c.service

/-- `[tuple(c["service"]) for c in CLUSTERS]`. -/
def servicePoints (cs : List Cluster) : List Pos :=
  cs.map fun c => c.service

/-- Python `min(remaining, key=...)`: the first element attaining the
least key. -/
def minByKey (f : Pos → Nat) : List Pos → Option Pos
  | [] => none
  | x :: xs =>
    match minByKey f xs with
    | none => some x
    | some m => some (if f x ≤ f m then x else m)

/-- The `while remaining:` loop of `build_route_nn`: repeatedly append
the nearest remaining point (by Manhattan distance), remove it, and
advance.  The fuel is the length of `remaining`, which decreases by
exactly one per iteration. -/
def nnLoop : Nat → Pos → List Pos → List Pos
  | 0, _, _ => []
  | fuel + 1, cur, remaining =>
    match minByKey (manhattan cur) remaining with
    | none => []
    | some nxt => nxt :: nnLoop fuel nxt (remaining.erase nxt)

/-- The trailing `if END_POS is not None: route.append(END_POS)`. -/
def endList (e : Option Pos) : List Pos :=
  match e with
  | none => []
  | some p => [p]

/-- `build_route_nn(start)` with its module-level inputs (`DUE_POINTS`,
`END_POS`) made explicit. -/
def build_route_nn (due : List Pos) (start : Pos) (endP : Option Pos) :
    List Pos :=
  (start :: nnLoop due.length start due) ++ endList endP

/-- `ZONE_RANK.get(z, 5)` over the fixed zone table. -/
def zoneRank (z : String) : Nat :=
  if z = "bottom_left" then 0
  else if z = "bottom_center" then 1
  else if z = "bottom_right" then 2
  else if z = "kantin" then 3
  else if z = "koperasi" then 4
  else if z = "lain" then 5
  else 5

/-- `sp2zone.get(p, "lain")`: the zone of the last cluster carrying the
service position `p` (a Python dict keeps the last write). -/
def sp2zone (cs : List Cluster) (p : Pos) : String :=
  match cs.reverse.find? (fun c => c.service = p) with
  | some c => c.zone
  | none => "lain"

/-- The patrol sort key `(ZONE_RANK.get(sp2zone.get(p, "lain"), 5), p[1], p[0])`. -/
def patrolKey (cs : List Cluster) (p : Pos) : Nat × Int × Int :=
  (zoneRank (sp2zone cs p), p.2, p.1)

/-- Lexicographic weak order on patrol keys. -/
def keyLe (a b : Nat × Int × Int) : Prop :=
  a.1 < b.1 ∨ (a.1 = b.1 ∧ (a.2.1 < b.2.1 ∨ (a.2.1 = b.2.1 ∧ a.2.2 ≤ b.2.2)))

instance (a b : Nat × Int × Int) : Decidable (keyLe a b) := by
  unfold keyLe; infer_instance

/-- The comparator realizing Python's `sorted(..., key=patrolKey)`.  The
key determines the position (it contains `(y, x)`), so every correct
sort produces the same list and stability is irrelevant. -/
def patrolLe (cs : List Cluster) (p q : Pos) : Bool :=
  decide (keyLe (patrolKey cs p) (patrolKey cs q))

/-- `build_route_patrol_real(start)` with its module-level inputs made
explicit. -/
def build_route_patrol_real (cs : List Cluster) (start : Pos)
    (endP : Option Pos) : List Pos :=
  (start :: (servicePoints cs).mergeSort (patrolLe cs)) ++ endList endP

/-! ### Frame builders -/

/-- The dwell appended by `build_path` in `mode == "nn"`. -/
def dwellNN (due : List Pos) (b : Pos) : List Pos :=
  if b ∈ due then List.replicate (max 1 (SERVICE_PAUSE_SEC * FPS)) b else []

/-- The dwell appended by `build_path` in `mode == "patrol"`. -/
def dwellPatrol (due : List Pos) (b : Pos) : List Pos :=
  List.replicate
    (max 1 ((if b ∈ due then SERVICE_PAUSE_SEC else QUICK_CHECK_SEC) * FPS)) b

/-- `build_path(route, mode, pathfinder)` from `reference.py`, with the
module-level `blocked`, `DUE_POINTS` and `END_POS` made explicit.  A
segment whose path has length ≤ 1 contributes nothing; otherwise the
path minus its first cell is appended, followed by a dwell unless the
waypoint equals the configured end
(`if END_POS is None or b != END_POS:`). -/
def build_path (bl : Grid) (due : List Pos) (endP : Option Pos)
    (route : List Pos) (mode alg : String) : Option (List Pos) :=
  if route.length < 2 then some []
  else
    (route.dropLast.zip route.tail).foldl
      (fun acc ab =>
        match acc with
        | none => none
        | some fs =>
          match findPath bl alg ab.1 ab.2 with
          | none => none
          | some seg =>
            if seg.length ≤ 1 then some fs
            else
              some (fs ++ seg.drop 1 ++
                (if endP ≠ some ab.2 then
                  (if mode = "nn" then dwellNN due ab.2
                   else if mode = "patrol" then dwellPatrol due ab.2
                   else [])
                 else [])))
      (some [])

/-- `build_frames(blocked, route, CLUSTERS, mode)` from
`multifloor_reference.py` (`due` standing for its `due_set`): identical
segment stitching, but the dwell has no end-waypoint guard and always
prefers the DUE pause. -/
def build_frames (bl : Grid) (route : List Pos) (due : List Pos)
    (mode : String) : Option (List Pos) :=
  if route.length < 2 then some []
  else
    (route.dropLast.zip route.tail).foldl
      (fun acc ab =>
        match acc with
        | none => none
        | some fs =>
          match astar bl ab.1 ab.2 with
          | none => none
          | some seg =>
            if seg.length ≤ 1 then some fs
            else
              some (fs ++ seg.drop 1 ++
                (if ab.2 ∈ due then
                  List.replicate (max 1 (SERVICE_PAUSE_SEC * FPS)) ab.2
                 else if mode = "patrol" then
                  List.replicate (max 1 (QUICK_CHECK_SEC * FPS)) ab.2
                 else [])))
      (some [])

/-! ### Specification-side notions for the claims -/

/-- The greedy nearest-due sequence described by the specification:
starting from `cur`, repeatedly append the remaining point of least
Manhattan distance — ties broken by first position in the list — and
remove it. -/
inductive NNGreedy : Pos → List Pos → List Pos → Prop
  | nil (cur : Pos) : NNGreedy cur [] []
  | cons (cur : Pos) (l1 l2 rest : List Pos) (nxt : Pos)
      (hmin : ∀ p ∈ l1 ++ nxt :: l2, manhattan cur nxt ≤ manhattan cur p)
      (hfirst : ∀ p ∈ l1, manhattan cur nxt < manhattan cur p)
      (htail : NNGreedy nxt (l1 ++ l2) rest) :
      NNGreedy cur (l1 ++ nxt :: l2) (nxt :: rest)

/-- The segment path the frame builders obtain for a waypoint pair
(total because the searches always return). -/
def segOf (bl : Grid) (alg : String) (a b : Pos) : List Pos :=
  (findPath bl alg a b).getD []

/-- The dwell-repetition count of `build_path` (single-floor) at an
arrival `b`, as a function of mode, DUE set and configured end. -/
def dwellCountSF (mode : String) (due : List Pos) (endP : Option Pos)
    (b : Pos) : Nat :=
  if endP = some b then 0
  else if mode = "nn" then
    (if b ∈ due then max 1 (SERVICE_PAUSE_SEC * FPS) else 0)
  else if mode = "patrol" then
    max 1 ((if b ∈ due then SERVICE_PAUSE_SEC else QUICK_CHECK_SEC) * FPS)
  else 0

/-- The dwell-repetition count of `build_frames` (multi-floor) at an
arrival `b`. -/
def dwellCountMF (mode : String) (due : List Pos) (b : Pos) : Nat :=
  if b ∈ due then max 1 (SERVICE_PAUSE_SEC * FPS)
  else if mode = "patrol" then max 1 (QUICK_CHECK_SEC * FPS)
  else 0

/-- The finite set of cells a search can ever visit: the grid rectangle
plus the start cell (used only for the termination bound). -/
def allowedF (start : Pos) : Finset Pos :=
  ((Finset.Icc (0 : Int) 34) ×ˢ (Finset.Icc (0 : Int) 19)) ∪ {start}

/-- The entry `astar` pushes when relaxing neighbour `n` from `cur`
whose recorded cost is `g` (a proof-side abbreviation). -/
def entryFor (goal : Pos) (g : Nat) (cur n : Pos) : AEntry :=
  (g + 1 + manhattan n goal, g + 1, n, some cur)

/-- The loop invariant of `astarLoop`.  For an entry `e : AEntry`,
`e.1` is `f`, `e.2.1` is `g`, `e.2.2.1` is the cell and `e.2.2.2` the
parent. -/
structure AInv (bl : Grid) (start goal : Pos) (heap : List AEntry)
    (came : Came) (gs : Gscore) (visited : List Pos) : Prop where
  start_mem : start ∈ visited
  goal_not_mem : goal ∉ visited
  vis_nodup : visited.Nodup
  vis_allowed : ∀ c ∈ visited, validP bl c ∨ c = start
  vis_chain : ∀ c ∈ visited, ∃ l, chainA came (dE bl start c + 1) c = some l ∧
    l.length = dE bl start c + 1 ∧ Walk bl start c l.reverse ∧ ∀ p ∈ l, p ∈ visited
  heap_f : ∀ e ∈ heap, e.1 = e.2.1 + manhattan e.2.2.1 goal
  heap_par_none : ∀ e ∈ heap, e.2.2.2 = none → e.2.2.1 = start ∧ e.2.1 = 0
  heap_par_some : ∀ e ∈ heap, ∀ p, e.2.2.2 = some p → p ∈ visited ∧
    Adj p e.2.2.1 ∧ validP bl e.2.2.1 ∧ e.2.1 = dE bl start p + 1
  frontier : ∀ u ∈ visited, ∀ v, Adj u v → validP bl v →
    v ∈ visited ∨ ∃ e ∈ heap, e.2.2.1 = v ∧ e.2.1 ≤ dE bl start u + 1
  gs_inv : ∀ v gv, gs v = some gv → v ∈ visited ∨ ∃ e ∈ heap, e.2.2.1 = v ∧ e.2.1 ≤ gv

/-- The loop invariant of `dijkstraLoop`.  For an entry `e : DEntry`,
`e.1` is the recorded distance and `e.2` the cell. -/
structure DInv (bl : Grid) (start goal : Pos) (pq : List DEntry)
    (dist : Dist) (prev : Prev) (visited : List Pos) : Prop where
  start_mem : start ∈ visited
  goal_not_mem : goal ∉ visited
  vis_nodup : visited.Nodup
  vis_allowed : ∀ c ∈ visited, validP bl c ∨ c = start
  vis_chain : ∀ c ∈ visited, ∃ l, chainD prev start (dE bl start c + 1) c = some l ∧
    l.length = dE bl start c + 1 ∧ Walk bl start c l.reverse ∧ ∀ p ∈ l, p ∈ visited
  vis_dist : ∀ c ∈ visited, dist c = some (dE bl start c)
  pq_entry : ∀ e ∈ pq, (e.2 = start ∧ e.1 = 0) ∨
    ∃ u ∈ visited, Adj u e.2 ∧ validP bl e.2 ∧ e.1 = dE bl start u + 1
  pq_dist : ∀ e ∈ pq, ∃ dv, dist e.2 = some dv ∧ dv ≤ e.1
  dist_start : dist start = some 0
  dist_prev : ∀ v dv, v ≠ start → dist v = some dv →
    ∃ u, prev v = some u ∧ u ∈ visited ∧ Adj u v ∧ validP bl v ∧
      dv = dE bl start u + 1
  frontier : ∀ u ∈ visited, ∀ v, Adj u v → validP bl v →
    v ∈ visited ∨ ∃ e ∈ pq, e.2 = v ∧ e.1 ≤ dE bl start u + 1
  dist_inv : ∀ v dv, dist v = some dv → v ∈ visited ∨ ∃ e ∈ pq, e.2 = v ∧ e.1 ≤ dv

/-! ## Theorems -/

/-! ### Grid mutation helpers (claim C9) -/

theorem mem_intRange {a b i : Int} : i ∈ intRange a b ↔ a ≤ i ∧ i < b := by
  unfold intRange
  simp only [List.mem_map, List.mem_range]
  constructor
  · rintro ⟨k, hk, rfl⟩
    omega
  · rintro ⟨h1, h2⟩
    exact ⟨(i - a).toNat, by omega, by omega⟩

theorem foldl_setIf (g : Grid) (ps : List Pos) (p : Pos) :
    (ps.foldl (fun g1 q => if inBoundsB q then setBlocked g1 q else g1) g) p
      = (g p || (decide (p ∈ ps) && inBoundsB p)) := by
  induction ps generalizing g with
  | nil => simp
  | cons q ps ih =>
    simp only [List.foldl_cons, ih]
    by_cases hq : inBoundsB q = true
    · by_cases hpq : p = q
      · subst hpq
        simp [setBlocked, hq]
      · simp [setBlocked, hq, hpq]
    · rw [Bool.not_eq_true] at hq
      by_cases hpq : p = q
      · subst hpq
        simp [hq]
      · simp [hq, hpq]

theorem block_hline_eq (g : Grid) (x0 x1 y : Int) (p : Pos) :
    block_hline g x0 x1 y p
      = (g p ||
          (decide (min x0 x1 ≤ p.1 ∧ p.1 ≤ max x0 x1 ∧ p.2 = y) && inBoundsB p)) := by
  unfold block_hline
  have h1 : (intRange (min x0 x1) (max x0 x1 + 1)).foldl
        (fun g1 xx => if inBoundsB (xx, y) then setBlocked g1 (xx, y) else g1) g
      = ((intRange (min x0 x1) (max x0 x1 + 1)).map (fun xx => ((xx, y) : Pos))).foldl
          (fun g1 q => if inBoundsB q then setBlocked g1 q else g1) g := by
    rw [List.foldl_map]
  rw [h1, foldl_setIf]
  congr 1
  congr 1
  rw [decide_eq_decide]
  simp only [List.mem_map, mem_intRange]
  constructor
  · rintro ⟨xx, hxx, rfl⟩
    exact ⟨hxx.1, by omega, rfl⟩
  · rintro ⟨ha, hb, hy⟩
    exact ⟨p.1, ⟨ha, by omega⟩, by rw [← hy]⟩

theorem block_vline_eq (g : Grid) (x y0 y1 : Int) (p : Pos) :
    block_vline g x y0 y1 p
      = (g p ||
          (decide (p.1 = x ∧ min y0 y1 ≤ p.2 ∧ p.2 ≤ max y0 y1) && inBoundsB p)) := by
  unfold block_vline
  have h1 : (intRange (min y0 y1) (max y0 y1 + 1)).foldl
        (fun g1 yy => if inBoundsB (x, yy) then setBlocked g1 (x, yy) else g1) g
      = ((intRange (min y0 y1) (max y0 y1 + 1)).map (fun yy => ((x, yy) : Pos))).foldl
          (fun g1 q => if inBoundsB q then setBlocked g1 q else g1) g := by
    rw [List.foldl_map]
  rw [h1, foldl_setIf]
  congr 1
  congr 1
  rw [decide_eq_decide]
  simp only [List.mem_map, mem_intRange]
  constructor
  · rintro ⟨yy, hyy, rfl⟩
    exact ⟨rfl, hyy.1, by omega⟩
  · rintro ⟨hx, ha, hb⟩
    exact ⟨p.2, ⟨ha, by omega⟩, by rw [← hx]⟩

theorem block_rect_eq (g : Grid) (x y w h : Int) (p : Pos) :
    block_rect g x y w h p
      = (g p ||
          (decide (x ≤ p.1 ∧ p.1 < x + w ∧ y ≤ p.2 ∧ p.2 < y + h) && inBoundsB p)) := by
  unfold block_rect
  have h1 : ∀ (g1 : Grid) (xx : Int),
      (intRange y (y + h)).foldl
          (fun g2 yy => if inBoundsB (xx, yy) then setBlocked g2 (xx, yy) else g2) g1
        = ((intRange y (y + h)).map (fun yy => ((xx, yy) : Pos))).foldl
            (fun g2 q => if inBoundsB q then setBlocked g2 q else g2) g1 := by
    intro g1 xx
    rw [List.foldl_map]
  have h2 : (intRange x (x + w)).foldl
        (fun g1 xx =>
          (intRange y (y + h)).foldl
            (fun g2 yy => if inBoundsB (xx, yy) then setBlocked g2 (xx, yy) else g2) g1) g
      = ((intRange x (x + w)).map
            (fun xx => (intRange y (y + h)).map (fun yy => ((xx, yy) : Pos)))).foldl
          (fun g1 l =>
            l.foldl (fun g2 q => if inBoundsB q then setBlocked g2 q else g2) g1) g := by
    rw [List.foldl_map]
    simp only [h1]
  rw [h2, ← List.foldl_flatten, foldl_setIf]
  congr 1
  congr 1
  rw [decide_eq_decide]
  constructor
  · intro hmem
    rcases List.mem_flatten.mp hmem with ⟨l, hl, hpl⟩
    rcases List.mem_map.mp hl with ⟨xx, hxx, rfl⟩
    rcases List.mem_map.mp hpl with ⟨yy, hyy, rfl⟩
    rcases mem_intRange.mp hxx with ⟨h1, h2⟩
    rcases mem_intRange.mp hyy with ⟨h3, h4⟩
    exact ⟨h1, h2, h3, h4⟩
  · rintro ⟨ha, hb, hc, hd⟩
    refine List.mem_flatten.mpr
      ⟨(intRange y (y + h)).map (fun yy => ((p.1, yy) : Pos)),
        List.mem_map.mpr ⟨p.1, mem_intRange.mpr ⟨ha, hb⟩, rfl⟩,
        List.mem_map.mpr ⟨p.2, mem_intRange.mpr ⟨hc, hd⟩, ?_⟩⟩
    rfl

/-- C9 (counterexample).  The claim says a mutation naming an
out-of-range cell fails fast and never applies the in-range remainder.
`block_rect(-1, 0, 2, 1)` on an all-free grid names the out-of-range
cell `(-1, 0)`, raises nothing, silently skips it, and still blocks the
in-range remainder `(0, 0)`. -/
theorem c9_counterexample :
    block_rect (fun _ => false) (-1) 0 2 1 (0, 0) = true ∧
      block_rect (fun _ => false) (-1) 0 2 1 (-1, 0) = false ∧
      inBoundsB (-1, 0) = false := by
  decide

/-- C9 (amended).  The rectangle and line mutations never signal
out-of-bounds; each marks exactly the in-range cells of the requested
region as blocked, silently skipping the out-of-range cells while the
in-range remainder is applied. -/
theorem c9_amended :
    (∀ (g : Grid) (x y w h : Int) (p : Pos),
        block_rect g x y w h p
          = (g p ||
              (decide (x ≤ p.1 ∧ p.1 < x + w ∧ y ≤ p.2 ∧ p.2 < y + h) &&
                inBoundsB p))) ∧
      (∀ (g : Grid) (x0 x1 y : Int) (p : Pos),
        block_hline g x0 x1 y p
          = (g p ||
              (decide (min x0 x1 ≤ p.1 ∧ p.1 ≤ max x0 x1 ∧ p.2 = y) &&
                inBoundsB p))) ∧
      (∀ (g : Grid) (x y0 y1 : Int) (p : Pos),
        block_vline g x y0 y1 p
          = (g p ||
              (decide (p.1 = x ∧ min y0 y1 ≤ p.2 ∧ p.2 ≤ max y0 y1) &&
                inBoundsB p))) :=
  ⟨block_rect_eq, block_hline_eq, block_vline_eq⟩

/-! ### Trivial search (claim C6) -/

/-- C6.  For every passable cell `p` and either algorithm,
`findPath(p, p, ·)` returns exactly the one-element path `[p]`: both
searches return before entering their loops. -/
theorem c6_findPath_self (bl : Grid) (alg : String) (p : Pos)
    (hp : validP bl p) : findPath bl alg p p = some [p] := by
  unfold findPath astar dijkstra
  by_cases h : alg = "astar" <;> simp [h]

theorem c6_findPath_self_witness :
    validP (fun _ => false) (1, 19) ∧
      findPath (fun _ => false) "astar" (1, 19) (1, 19) = some [(1, 19)] :=
  ⟨by decide, c6_findPath_self (fun _ => false) "astar" (1, 19) (by decide)⟩

/-! ### Nearest-due route (claims C3 and C8) -/

/-- C8 (counterexample).  With no DUE cluster and the configured end
equal to the start (the source's own configuration,
`START_POS = END_POS = (1, 19)`), the route is `[start, end]`, not the
claimed `[start]`. -/
theorem c8_counterexample :
    build_route_nn (duePoints [] THRESHOLD_PCT) (1, 19) (some (1, 19))
        = [(1, 19), (1, 19)] ∧
      ([((1 : Int), (19 : Int)), (1, 19)] : List Pos) ≠ [(1, 19)] := by
  constructor
  · rfl
  · decide

/-- C8 (amended).  With no DUE cluster the route is `[start, end]`
whenever an end is configured — even when the end equals the start —
and `[start]` when no end is configured; the source appends `END_POS`
without any distinctness test. -/
theorem c8_amended (cs : List Cluster) (t : Rat) (start e : Pos)
    (hdue : duePoints cs t = []) :
    build_route_nn (duePoints cs t) start (some e) = [start, e] ∧
      build_route_nn (duePoints cs t) start none = [start] := by
  rw [hdue]
  constructor <;> rfl

theorem c8_amended_witness :
    duePoints [] (80 : Rat) = [] ∧
      (build_route_nn (duePoints [] (80 : Rat)) (1, 19) (some (1, 19))
          = [(1, 19), (1, 19)] ∧
        build_route_nn (duePoints [] (80 : Rat)) (1, 19) none = [(1, 19)]) :=
  ⟨rfl, c8_amended [] 80 (1, 19) (1, 19) rfl⟩

theorem minByKey_eq_none {f : Pos → Nat} {l : List Pos} :
    minByKey f l = none ↔ l = [] := by
  cases l with
  | nil => simp [minByKey]
  | cons x xs =>
    simp only [minByKey]
    cases minByKey f xs <;> simp

theorem minByKey_spec {f : Pos → Nat} :
    ∀ {l : List Pos} {m : Pos}, minByKey f l = some m →
      ∃ l1 l2, l = l1 ++ m :: l2 ∧ (∀ p ∈ l1, f m < f p) ∧ ∀ p ∈ l, f m ≤ f p := by
  intro l
  induction l with
  | nil => intro m h; simp [minByKey] at h
  | cons x xs ih =>
    intro m h
    rw [minByKey] at h
    cases hxs : minByKey f xs with
    | none =>
      rw [hxs] at h
      obtain rfl : x = m := by simpa using h
      obtain rfl : xs = [] := minByKey_eq_none.mp hxs
      exact ⟨[], [], rfl, by simp, by simp⟩
    | some m' =>
      rw [hxs] at h
      obtain ⟨l1', l2', heq, hstrict, hmin⟩ := ih hxs
      by_cases hle : f x ≤ f m'
      · obtain rfl : x = m := by simpa [hle] using h
        refine ⟨[], xs, rfl, by simp, ?_⟩
        intro p hp
        rcases List.mem_cons.mp hp with rfl | hp
        · exact le_refl _
        · exact le_trans hle (hmin p hp)
      · obtain rfl : m' = m := by simpa [hle] using h
        refine ⟨x :: l1', l2', by rw [heq, List.cons_append], ?_, ?_⟩
        · intro p hp
          rcases List.mem_cons.mp hp with rfl | hp
          · exact lt_of_not_le hle
          · exact hstrict p hp
        · intro p hp
          rcases List.mem_cons.mp hp with rfl | hp
          · exact le_of_lt (lt_of_not_le hle)
          · exact hmin p hp

theorem nnLoop_spec :
    ∀ (fuel : Nat) (cur : Pos) (remaining : List Pos),
      remaining.length = fuel →
      NNGreedy cur remaining (nnLoop fuel cur remaining) ∧
        (nnLoop fuel cur remaining).Perm remaining := by
  intro fuel
  induction fuel with
  | zero =>
    intro cur remaining h
    rw [List.length_eq_zero] at h
    subst h
    exact ⟨NNGreedy.nil cur, List.Perm.refl _⟩
  | succ n ih =>
    intro cur remaining hlen
    cases hmin : minByKey (manhattan cur) remaining with
    | none =>
      exfalso
      rw [minByKey_eq_none.mp hmin] at hlen
      simp at hlen
    | some nxt =>
      obtain ⟨l1, l2, rfl, hstrict, hmins⟩ := minByKey_spec hmin
      have hnotmem : nxt ∉ l1 := fun hmem => lt_irrefl _ (hstrict nxt hmem)
      have herase : (l1 ++ nxt :: l2).erase nxt = l1 ++ l2 := by
        rw [List.erase_append_right _ hnotmem, List.erase_cons_head]
      have hlen2 : (l1 ++ l2).length = n := by
        simp only [List.length_append, List.length_cons] at hlen ⊢
        omega
      obtain ⟨hg, hp⟩ := ih nxt (l1 ++ l2) hlen2
      have hstep : nnLoop (n + 1) cur (l1 ++ nxt :: l2)
          = nxt :: nnLoop n nxt ((l1 ++ nxt :: l2).erase nxt) := by
        rw [nnLoop, hmin]
      rw [hstep, herase]
      refine ⟨NNGreedy.cons cur l1 l2 _ nxt hmins hstrict hg, ?_⟩
      exact ((hp.cons nxt).trans List.perm_middle.symm)

theorem firstmin_split_unique {f : Pos → Nat} :
    ∀ (l1 : List Pos) (l2 l1' l2' : List Pos) (a a' : Pos),
      l1 ++ a :: l2 = l1' ++ a' :: l2' →
      (∀ p ∈ l1, f a < f p) → (∀ p ∈ l1 ++ a :: l2, f a ≤ f p) →
      (∀ p ∈ l1', f a' < f p) → (∀ p ∈ l1' ++ a' :: l2', f a' ≤ f p) →
      l1 = l1' ∧ a = a' ∧ l2 = l2' := by
  intro l1
  induction l1 with
  | nil =>
    intro l2 l1' l2' a a' heq _ h2 h3 h4
    cases l1' with
    | nil =>
      simp only [List.nil_append] at heq
      injection heq with e1 e2
      exact ⟨rfl, e1, e2⟩
    | cons b l1t' =>
      exfalso
      simp only [List.nil_append, List.cons_append] at heq
      have hab : a = b := List.head_eq_of_cons_eq heq
      have hlt : f a' < f a := h3 a (by rw [hab]; exact List.mem_cons_self b l1t')
      have hmem' : a' ∈ ([] : List Pos) ++ a :: l2 := by
        rw [List.nil_append, heq]
        exact List.mem_cons_of_mem b
          (List.mem_append_right _ (List.mem_cons_self a' l2'))
      have hle : f a ≤ f a' := h2 a' hmem'
      exact lt_irrefl _ (lt_of_le_of_lt hle hlt)
  | cons b l1t ih =>
    intro l2 l1' l2' a a' heq h1 h2 h3 h4
    cases l1' with
    | nil =>
      exfalso
      simp only [List.cons_append, List.nil_append] at heq
      have hab : a' = b := (List.head_eq_of_cons_eq heq).symm
      have hlt : f a < f a' := h1 a' (by rw [hab]; exact List.mem_cons_self b l1t)
      have hmem' : a ∈ ([] : List Pos) ++ a' :: l2' := by
        rw [List.nil_append, ← heq]
        exact List.mem_cons_of_mem b
          (List.mem_append_right _ (List.mem_cons_self a l2))
      have hle : f a' ≤ f a := h4 a hmem'
      exact lt_irrefl _ (lt_of_le_of_lt hle hlt)
    | cons b' l1t' =>
      simp only [List.cons_append] at heq
      have hbb : b = b' := List.head_eq_of_cons_eq heq
      have htl : l1t ++ a :: l2 = l1t' ++ a' :: l2' := List.tail_eq_of_cons_eq heq
      obtain ⟨e1, e2, e3⟩ := ih l2 l1t' l2' a a' htl
        (fun p hp => h1 p (List.mem_cons_of_mem b hp))
        (fun p hp => h2 p (List.mem_cons_of_mem b hp))
        (fun p hp => h3 p (List.mem_cons_of_mem b' hp))
        (fun p hp => h4 p (List.mem_cons_of_mem b' hp))
      exact ⟨by rw [hbb, e1], e2, e3⟩

/-- The greedy nearest-due sequence is unique: its characterization is
deterministic. -/
theorem nnGreedy_unique {cur : Pos} {rem out1 : List Pos}
    (h1 : NNGreedy cur rem out1) :
    ∀ {out2 : List Pos}, NNGreedy cur rem out2 → out1 = out2 := by
  induction h1 with
  | nil cur =>
    intro out2 h2
    generalize hrem : ([] : List Pos) = rem2 at h2
    cases h2 with
    | nil => rfl
    | cons cur l1 l2 rest nxt hmin hfirst htail =>
      exact absurd hrem.symm
        (List.append_ne_nil_of_right_ne_nil l1 (List.cons_ne_nil nxt l2))
  | cons cur l1 l2 rest nxt hmin hfirst htail ih =>
    intro out2 h2
    generalize hrem : l1 ++ nxt :: l2 = rem2 at h2
    cases h2 with
    | nil =>
      exact absurd hrem (List.append_ne_nil_of_right_ne_nil l1 (List.cons_ne_nil nxt l2))
    | cons cur l1' l2' rest' nxt' hmin' hfirst' htail' =>
      obtain ⟨e1, e2, e3⟩ :=
        firstmin_split_unique l1 l2 l1' l2' nxt nxt' hrem hfirst hmin hfirst' hmin'
      subst e1
      subst e2
      subst e3
      rw [ih htail']

/-- C3.  The Nearest-Due route equals `start` followed by the greedy
sequence over the DUE service positions (fill percentage at least
`threshold × 100`) — nearest remaining point by Manhattan distance,
ties to the first in cluster enumeration order, chosen points removed —
followed by the configured end; the greedy characterization determines
that sequence uniquely, the sequence is a permutation of the DUE
service positions (every DUE cluster's service position exactly once,
no non-DUE position), and the route length is
`|DUE| + 1 + (1 if an end is configured)`. -/
theorem c3_route_nn (cs : List Cluster) (threshold : Rat) (start : Pos)
    (endP : Option Pos) :
    ∃ mids,
      build_route_nn (duePoints cs (threshold * 100)) start endP
          = (start :: mids) ++ endList endP ∧
        NNGreedy start (duePoints cs (threshold * 100)) mids ∧
        (∀ mids', NNGreedy start (duePoints cs (threshold * 100)) mids' →
          mids' = mids) ∧
        mids.Perm (duePoints cs (threshold * 100)) ∧
        (build_route_nn (duePoints cs (threshold * 100)) start endP).length
          = (duePoints cs (threshold * 100)).length + 1 + (endList endP).length := by
  set due := duePoints cs (threshold * 100) with hdue
  obtain ⟨hg, hp⟩ := nnLoop_spec due.length start due rfl
  refine ⟨nnLoop due.length start due, rfl, hg,
    fun mids' h => nnGreedy_unique h hg, hp, ?_⟩
  simp only [build_route_nn, List.length_append, List.length_cons, hp.length_eq]

/-! ### Full-patrol route (claim C4) -/

theorem keyLe_trans :
    ∀ a b c : Nat × Int × Int, keyLe a b → keyLe b c → keyLe a c := by
  rintro ⟨a1, a2, a3⟩ ⟨b1, b2, b3⟩ ⟨c1, c2, c3⟩ h1 h2
  simp only [keyLe] at h1 h2 ⊢
  omega

theorem keyLe_total : ∀ a b : Nat × Int × Int, keyLe a b ∨ keyLe b a := by
  rintro ⟨a1, a2, a3⟩ ⟨b1, b2, b3⟩
  simp only [keyLe]
  omega

theorem patrolLe_trans (cs : List Cluster) :
    ∀ a b c : Pos, patrolLe cs a b = true → patrolLe cs b c = true →
      patrolLe cs a c = true := by
  intro a b c h1 h2
  exact decide_eq_true
    (keyLe_trans _ _ _ (of_decide_eq_true h1) (of_decide_eq_true h2))

theorem patrolLe_total (cs : List Cluster) :
    ∀ a b : Pos, (patrolLe cs a b || patrolLe cs b a) = true := by
  intro a b
  rcases keyLe_total (patrolKey cs a) (patrolKey cs b) with h | h
  · exact Bool.or_eq_true_iff.mpr (Or.inl (decide_eq_true h))
  · exact Bool.or_eq_true_iff.mpr (Or.inr (decide_eq_true h))

/-- C4.  The Full-Patrol route is `start` followed by all service
positions sorted by the key `(zoneRank(zone), y, x)` (unknown zones rank
last, at 5) followed by the configured end; the sorted block is a
permutation of the service positions (every cluster exactly once), its
keys are non-decreasing, and it is independent of the start position and
of every cluster's fill percentage. -/
theorem c4_route_patrol (cs : List Cluster) (start : Pos) (endP : Option Pos) :
    ∃ mids,
      build_route_patrol_real cs start endP = (start :: mids) ++ endList endP ∧
        mids.Perm (servicePoints cs) ∧
        List.Pairwise (fun p q => keyLe (patrolKey cs p) (patrolKey cs q)) mids ∧
        (∀ start2, build_route_patrol_real cs start2 endP
          = (start2 :: mids) ++ endList endP) ∧
        (∀ f : Rat → Rat,
          build_route_patrol_real
              (cs.map fun c => ⟨c.name, c.zone, c.service, f c.pct⟩) start endP
            = build_route_patrol_real cs start endP) := by
  refine ⟨(servicePoints cs).mergeSort (patrolLe cs), rfl,
    List.mergeSort_perm _ _, ?_, fun s2 => rfl, ?_⟩
  · exact (List.sorted_mergeSort (patrolLe_trans cs) (patrolLe_total cs)
      (servicePoints cs)).imp fun h => of_decide_eq_true h
  · intro f
    have hsp : servicePoints (cs.map fun c => ⟨c.name, c.zone, c.service, f c.pct⟩)
        = servicePoints cs := by
      simp [servicePoints]
    have hzone : ∀ p, sp2zone (cs.map fun c => ⟨c.name, c.zone, c.service, f c.pct⟩) p
        = sp2zone cs p := by
      intro p
      unfold sp2zone
      rw [← List.map_reverse, List.find?_map]
      have hpred : ((fun c : Cluster => decide (c.service = p)) ∘ fun c : Cluster =>
          ({name := c.name, zone := c.zone, service := c.service,
            pct := f c.pct} : Cluster))
          = fun c : Cluster => decide (c.service = p) := rfl
      rw [hpred]
      cases hfind : cs.reverse.find? (fun c : Cluster => decide (c.service = p)) <;> rfl
    have hle : patrolLe (cs.map fun c => ⟨c.name, c.zone, c.service, f c.pct⟩)
        = patrolLe cs := by
      funext p q
      unfold patrolLe patrolKey
      rw [hzone, hzone]
    unfold build_route_patrol_real
    rw [hsp, hle]

/-! ### Toolbox: adjacency, walks, shortest distance -/

theorem manhattan_self (p : Pos) : manhattan p p = 0 := by
  simp [manhattan]

theorem adj_ne {p q : Pos} (h : Adj p q) : p ≠ q := by
  intro he
  rw [he, Adj, manhattan_self] at h
  exact absurd h (by omega)

theorem mem_neighbors_iff {p q : Pos} : q ∈ neighbors p ↔ Adj p q := by
  rcases p with ⟨px, py⟩
  rcases q with ⟨qx, qy⟩
  simp only [neighbors, Adj, manhattan, List.mem_cons, List.mem_singleton,
    List.not_mem_nil, or_false, Prod.mk.injEq]
  omega

theorem manhattan_adj_le {a b : Pos} (h : Adj a b) (g : Pos) :
    manhattan a g ≤ manhattan b g + 1 := by
  rcases a with ⟨a1, a2⟩
  rcases b with ⟨b1, b2⟩
  rcases g with ⟨g1, g2⟩
  simp only [Adj, manhattan] at h ⊢
  omega

theorem walk_single (bl : Grid) (s : Pos) : Walk bl s s [s] := by
  refine ⟨rfl, rfl, ?_, ?_⟩
  · exact List.chain'_singleton s
  · intro p hp
    simp at hp

theorem walk_ne_nil {bl : Grid} {s t : Pos} {l : List Pos} (h : Walk bl s t l) :
    l ≠ [] := by
  intro he
  rw [he] at h
  exact absurd h.1 (by simp)

theorem walk_length_pos {bl : Grid} {s t : Pos} {l : List Pos}
    (h : Walk bl s t l) : 1 ≤ l.length :=
  List.length_pos.mpr (walk_ne_nil h)

theorem walk_extend {bl : Grid} {s u v : Pos} {l : List Pos}
    (h : Walk bl s u l) (hadj : Adj u v) (hv : validP bl v) :
    Walk bl s v (l ++ [v]) := by
  obtain ⟨h1, h2, h3, h4⟩ := h
  rcases l with _ | ⟨a, t⟩
  · simp at h1
  refine ⟨by simpa using h1, ?_, ?_, ?_⟩
  · exact List.getLast?_concat _
  · rw [List.chain'_append]
    refine ⟨h3, List.chain'_singleton v, ?_⟩
    intro x hx y hy
    simp only [List.head?_cons, Option.mem_def, Option.some.injEq] at hy
    rw [h2] at hx
    simp only [Option.mem_def, Option.some.injEq] at hx
    rw [← hx, ← hy]
    exact hadj
  · intro p hp
    simp only [List.cons_append, List.tail_cons] at hp
    rcases List.mem_append.mp hp with hp | hp
    · exact h4 p (by simpa using hp)
    · simp only [List.mem_singleton] at hp
      rw [hp]
      exact hv

theorem dE_le {bl : Grid} {s t : Pos} {l : List Pos} (h : Walk bl s t l) :
    dE bl s t + 1 ≤ l.length := by
  have h1 : 1 ≤ l.length := walk_length_pos h
  have hmem : l.length - 1 ∈ {n | ∃ l2, Walk bl s t l2 ∧ l2.length = n + 1} :=
    ⟨l, h, by omega⟩
  have := Nat.sInf_le hmem
  unfold dE
  omega

theorem dE_exists {bl : Grid} {s t : Pos} (h : Reach bl s t) :
    ∃ l, Walk bl s t l ∧ l.length = dE bl s t + 1 := by
  obtain ⟨l, hl⟩ := h
  have hne : {n | ∃ l2, Walk bl s t l2 ∧ l2.length = n + 1}.Nonempty :=
    ⟨l.length - 1, l, hl, by have := walk_length_pos hl; omega⟩
  exact Nat.sInf_mem hne

theorem dE_self (bl : Grid) (s : Pos) : dE bl s s = 0 := by
  have := dE_le (walk_single bl s)
  simp at this
  omega

theorem reach_self (bl : Grid) (s : Pos) : Reach bl s s :=
  ⟨[s], walk_single bl s⟩

theorem dE_step {bl : Grid} {s u v : Pos} (hr : Reach bl s u) (hadj : Adj u v)
    (hv : validP bl v) : Reach bl s v ∧ dE bl s v ≤ dE bl s u + 1 := by
  obtain ⟨l, hl, hlen⟩ := dE_exists hr
  have hw := walk_extend hl hadj hv
  refine ⟨⟨_, hw⟩, ?_⟩
  have := dE_le hw
  simp only [List.length_append, List.length_singleton] at this
  omega

/-- The first element of a nonempty-headed list not satisfying the
suffix membership: split a list whose head is in `V` and whose last
element is not, at the first exit from `V`. -/
theorem split_first_exit {V : List Pos} :
    ∀ (l : List Pos) (h0 lst : Pos), l.head? = some h0 → h0 ∈ V →
      l.getLast? = some lst → lst ∉ V →
      ∃ l1 x y l2, l = l1 ++ x :: y :: l2 ∧ x ∈ V ∧ y ∉ V ∧
        ∀ p ∈ l1 ++ [x], p ∈ V := by
  intro l
  induction l with
  | nil => intro h0 lst h1 _ h3 _; simp at h1
  | cons a t ih =>
    intro h0 lst h1 h2 h3 h4
    simp only [List.head?_cons, Option.some.injEq] at h1
    subst h1
    rcases t with _ | ⟨b, t2⟩
    · simp only [List.getLast?_singleton, Option.some.injEq] at h3
      subst h3
      exact absurd h2 h4
    · by_cases hb : b ∈ V
      · have h3' : (b :: t2).getLast? = some lst := by
          rw [List.getLast?_cons_cons] at h3
          exact h3
        obtain ⟨l1, x, y, l2, he, hx, hy, hall⟩ :=
          ih b lst rfl hb h3' h4
        refine ⟨a :: l1, x, y, l2, by rw [List.cons_append, ← he], hx, hy, ?_⟩
        intro p hp
        rcases List.mem_cons.mp hp with rfl | hp
        · exact h2
        · exact hall p hp
      · exact ⟨[], a, b, t2, rfl, h2, hb, by
          intro p hp
          simp only [List.nil_append, List.mem_singleton] at hp
          rw [hp]
          exact h2⟩

/-! ### Toolbox: the heap orders are total preorders -/

theorem aLe_trans : ∀ a b c : AEntry, aLe a b → aLe b c → aLe a c := by
  rintro ⟨f1, g1, ⟨x1, y1⟩, o1⟩ ⟨f2, g2, ⟨x2, y2⟩, o2⟩ ⟨f3, g3, ⟨x3, y3⟩, o3⟩ h1 h2
  rcases o1 with _ | ⟨u1, v1⟩ <;> rcases o2 with _ | ⟨u2, v2⟩ <;>
    rcases o3 with _ | ⟨u3, v3⟩ <;>
    simp only [aLe, posLt, posLe, oparLe, Prod.mk.injEq, and_true, true_and,
      and_false, false_and, or_true, true_or, or_false, false_or] at h1 h2 ⊢ <;>
    omega

theorem aLe_total : ∀ a b : AEntry, aLe a b ∨ aLe b a := by
  rintro ⟨f1, g1, ⟨x1, y1⟩, o1⟩ ⟨f2, g2, ⟨x2, y2⟩, o2⟩
  rcases o1 with _ | ⟨u1, v1⟩ <;> rcases o2 with _ | ⟨u2, v2⟩ <;>
    simp only [aLe, posLt, posLe, oparLe, Prod.mk.injEq, and_true, true_and,
      and_false, false_and, or_true, true_or, or_false, false_or] <;>
    omega

theorem aLe_f {a b : AEntry} (h : aLe a b) : a.1 ≤ b.1 := by
  rcases h with h | ⟨h, _⟩
  · exact le_of_lt h
  · exact le_of_eq h

theorem dLe_trans : ∀ a b c : DEntry, dLe a b → dLe b c → dLe a c := by
  rintro ⟨d1, x1, y1⟩ ⟨d2, x2, y2⟩ ⟨d3, x3, y3⟩ h1 h2
  simp only [dLe, posLe, Prod.mk.injEq, and_true, true_and] at h1 h2 ⊢
  omega

theorem dLe_total : ∀ a b : DEntry, dLe a b ∨ dLe b a := by
  rintro ⟨d1, x1, y1⟩ ⟨d2, x2, y2⟩
  simp only [dLe, posLe, Prod.mk.injEq, and_true, true_and]
  omega

theorem dLe_d {a b : DEntry} (h : dLe a b) : a.1 ≤ b.1 := by
  rcases h with h | ⟨h, _⟩
  · exact le_of_lt h
  · exact le_of_eq h

/-! ### Toolbox: `minimumBy` and `popMin` -/

theorem minimumBy_eq_none {α : Type} {le : α → α → Prop} [DecidableRel le]
    {l : List α} : minimumBy le l = none ↔ l = [] := by
  cases l with
  | nil => simp [minimumBy]
  | cons a as =>
    simp only [minimumBy]
    cases minimumBy le as <;> simp

theorem minimumBy_mem {α : Type} {le : α → α → Prop} [DecidableRel le] :
    ∀ {l : List α} {m : α}, minimumBy le l = some m → m ∈ l := by
  intro l
  induction l with
  | nil => intro m h; simp [minimumBy] at h
  | cons a as ih =>
    intro m h
    rw [minimumBy] at h
    cases has : minimumBy le as with
    | none =>
      rw [has] at h
      obtain rfl : a = m := by simpa using h
      exact List.mem_cons_self a as
    | some m' =>
      rw [has] at h
      by_cases hle : le a m'
      · obtain rfl : a = m := by simpa [hle] using h
        exact List.mem_cons_self a as
      · obtain rfl : m' = m := by simpa [hle] using h
        exact List.mem_cons_of_mem a (ih has)

theorem minimumBy_le {α : Type} {le : α → α → Prop} [DecidableRel le]
    (htrans : ∀ a b c, le a b → le b c → le a c)
    (htotal : ∀ a b, le a b ∨ le b a) :
    ∀ {l : List α} {m : α}, minimumBy le l = some m → ∀ x ∈ l, le m x := by
  intro l
  induction l with
  | nil => intro m h; simp [minimumBy] at h
  | cons a as ih =>
    intro m h x hx
    rw [minimumBy] at h
    cases has : minimumBy le as with
    | none =>
      rw [has] at h
      have hma : m = a := by simpa using h.symm
      obtain rfl : as = [] := minimumBy_eq_none.mp has
      subst hma
      rcases List.mem_cons.mp hx with rfl | hx
      · rcases htotal x x with hr | hr <;> exact hr
      · simp at hx
    | some m' =>
      rw [has] at h
      by_cases hle : le a m'
      · have hma : m = a := by simpa [hle] using h.symm
        subst hma
        rcases List.mem_cons.mp hx with rfl | hx
        · rcases htotal x x with hr | hr <;> exact hr
        · exact htrans _ _ _ hle (ih has x hx)
      · have hmm : m = m' := by simpa [hle] using h.symm
        subst hmm
        rcases List.mem_cons.mp hx with rfl | hx
        · rcases htotal x m with hr | hr
          · exact absurd hr hle
          · exact hr
        · exact ih has x hx

theorem popMin_eq_none {α : Type} {le : α → α → Prop} [DecidableRel le]
    [DecidableEq α] {l : List α} : popMin le l = none ↔ l = [] := by
  unfold popMin
  cases hm : minimumBy le l with
  | none => simpa using minimumBy_eq_none.mp hm
  | some m =>
    simp only []
    constructor
    · intro h; simp at h
    · intro h
      rw [h] at hm
      simp [minimumBy] at hm

theorem popMin_spec {α : Type} {le : α → α → Prop} [DecidableRel le]
    [DecidableEq α] {l : List α} {e : α} {rest : List α}
    (htrans : ∀ a b c, le a b → le b c → le a c)
    (htotal : ∀ a b, le a b ∨ le b a)
    (h : popMin le l = some (e, rest)) :
    e ∈ l ∧ rest = l.erase e ∧ (∀ x ∈ l, le e x) := by
  unfold popMin at h
  cases hm : minimumBy le l with
  | none => rw [hm] at h; simp at h
  | some m =>
    rw [hm] at h
    injection h with h2
    injection h2 with he hr
    subst he
    subst hr
    exact ⟨minimumBy_mem hm, rfl, minimumBy_le htrans htotal hm⟩

theorem erase_subset2 {α : Type} [DecidableEq α] (a : α) (l : List α) :
    l.erase a ⊆ l :=
  List.erase_subset _ _

theorem mem_erase_of_ne2 {α : Type} [DecidableEq α] {a b : α} {l : List α}
    (h : a ≠ b) : a ∈ l.erase b ↔ a ∈ l :=
  List.mem_erase_of_ne h

theorem length_erase2 {α : Type} [DecidableEq α] {a : α} {l : List α}
    (h : a ∈ l) : (l.erase a).length = l.length - 1 :=
  List.length_erase_of_mem h

theorem erase_cons_head2 {α : Type} [DecidableEq α] (a : α) (l : List α) :
    (a :: l).erase a = l :=
  List.erase_cons_head a l

/-! ### A* loop invariants -/

theorem chainA_congr {came came' : Came} :
    ∀ (fuel : Nat) (p : Pos) (l : List Pos),
      chainA came fuel p = some l → (∀ q ∈ l, came' q = came q) →
      chainA came' fuel p = some l := by
  intro fuel
  induction fuel with
  | zero => intro p l h _; simp [chainA] at h
  | succ n ih =>
    intro p l h hq
    rw [chainA] at h ⊢
    cases hc : came p with
    | none => rw [hc] at h; simp at h
    | some par =>
      rw [hc] at h
      cases par with
      | none =>
        dsimp only at h
        obtain rfl : l = [p] := by simpa using h.symm
        rw [hq p (by simp), hc]
      | some q =>
        dsimp only at h
        cases hch : chainA came n q with
        | none => rw [hch] at h; simp at h
        | some l2 =>
          rw [hch] at h
          obtain rfl : l = p :: l2 := by simpa using h.symm
          rw [hq p (List.mem_cons_self p l2), hc]
          dsimp only
          rw [ih q l2 hch (fun r hr => hq r (List.mem_cons_of_mem p hr))]
          rfl

theorem visited_card_le {bl : Grid} {start : Pos} {visited : List Pos}
    (hnd : visited.Nodup) (hall : ∀ c ∈ visited, validP bl c ∨ c = start) :
    visited.length ≤ 701 := by
  have hsub : visited.toFinset ⊆ allowedF start := by
    intro p hp
    rw [List.mem_toFinset] at hp
    rcases hall p hp with hv | rfl
    · apply Finset.mem_union_left
      obtain ⟨hb, _⟩ := hv
      rw [inBoundsB, decide_eq_true_eq] at hb
      unfold GRID_W GRID_H at hb
      rw [Finset.mem_product, Finset.mem_Icc, Finset.mem_Icc]
      omega
    · exact Finset.mem_union_right _ (Finset.mem_singleton_self _)
  have h1 : visited.length = visited.toFinset.card :=
    (List.toFinset_card_of_nodup hnd).symm
  have h2 : visited.toFinset.card ≤ (allowedF start).card :=
    Finset.card_le_card hsub
  have h3 : (allowedF start).card ≤ 701 := by
    unfold allowedF
    refine le_trans (Finset.card_union_le _ _) ?_
    rw [Finset.card_product, Finset.card_singleton, Int.card_Icc, Int.card_Icc]
    rfl
  omega

theorem entry_reach {bl : Grid} {start goal : Pos} {heap : List AEntry}
    {came : Came} {gs : Gscore} {visited : List Pos}
    (inv : AInv bl start goal heap came gs visited) {e : AEntry}
    (he : e ∈ heap) :
    Reach bl start e.2.2.1 ∧ dE bl start e.2.2.1 ≤ e.2.1 := by
  cases hpar : e.2.2.2 with
  | none =>
    obtain ⟨hc, hg⟩ := inv.heap_par_none e he hpar
    rw [hc, hg, dE_self]
    exact ⟨reach_self bl start, le_refl 0⟩
  | some p =>
    obtain ⟨hpv, hadj, hval, hg⟩ := inv.heap_par_some e he p hpar
    obtain ⟨l, _, _, hw, _⟩ := inv.vis_chain p hpv
    obtain ⟨hr, hd⟩ := dE_step ⟨l.reverse, hw⟩ hadj hval
    exact ⟨hr, by omega⟩

/-- When a cell not yet visited is popped, its recorded `g` equals the
true shortest distance: the heart of A* optimality with the (consistent)
Manhattan heuristic. -/
theorem pop_opt {bl : Grid} {start goal : Pos} {heap : List AEntry}
    {came : Came} {gs : Gscore} {visited : List Pos}
    (inv : AInv bl start goal heap came gs visited) {e : AEntry}
    {rest : List AEntry} (hpop : popMin aLe heap = some (e, rest))
    (hnv : e.2.2.1 ∉ visited) :
    e.2.1 = dE bl start e.2.2.1 ∧ Reach bl start e.2.2.1 := by
  obtain ⟨hmem, hrest, hmin⟩ := popMin_spec aLe_trans aLe_total hpop
  obtain ⟨hr, hub⟩ := entry_reach inv hmem
  refine ⟨le_antisymm ?_ hub, hr⟩
  by_contra hlt
  push_neg at hlt
  have hdlt : dE bl start e.2.2.1 < e.2.1 := by omega
  obtain ⟨W, hW, hWlen⟩ := dE_exists hr
  obtain ⟨l1, x, y, l2, hsplit, hxV, hyV, hallV⟩ :=
    split_first_exit W start e.2.2.1 hW.1 inv.start_mem hW.2.1 hnv
  -- the prefix walk start .. x gives dE x ≤ l1.length
  have hpre : Walk bl start x (l1 ++ [x]) := by
    refine ⟨?_, List.getLast?_concat _, ?_, ?_⟩
    · have := hW.1
      rw [hsplit] at this
      cases l1 with
      | nil => simpa using this
      | cons a t => simpa using this
    · have hch := hW.2.2.1
      rw [hsplit, List.chain'_append] at hch
      rw [List.chain'_append]
      refine ⟨hch.1, List.chain'_singleton x, ?_⟩
      intro u hu v hv
      simp only [List.head?_cons, Option.mem_def, Option.some.injEq] at hv
      subst hv
      exact hch.2.2 u hu x (by simp)
    · intro p hp
      apply hW.2.2.2
      rw [hsplit]
      cases l1 with
      | nil => simp at hp
      | cons a t =>
        simp only [List.cons_append, List.tail_cons] at hp ⊢
        rcases List.mem_append.mp hp with hp | hp
        · exact List.mem_append_left _ hp
        · simp only [List.mem_singleton] at hp
          subst hp
          exact List.mem_append_right _ (List.mem_cons_self _ _)
  have hdx : dE bl start x ≤ l1.length := by
    have := dE_le hpre
    simp only [List.length_append, List.length_singleton] at this
    omega
  -- the suffix chain y .. cur bounds the heuristic at y
  have hchainy : List.Chain' Adj (y :: l2) ∧ (y :: l2).getLast? = some e.2.2.1 := by
    have hch := hW.2.2.1
    rw [hsplit, List.chain'_append] at hch
    have h2 := hch.2.1
    rw [List.chain'_cons] at h2
    constructor
    · exact h2.2
    · have := hW.2.1
      rw [hsplit] at this
      rw [List.getLast?_append_of_ne_nil _ (by simp)] at this
      exact this
  have hhy : manhattan y goal ≤ l2.length + manhattan e.2.2.1 goal := by
    have hgen : ∀ (m : List Pos) (a : Pos), List.Chain' Adj (a :: m) →
        (a :: m).getLast? = some e.2.2.1 →
        manhattan a goal ≤ m.length + manhattan e.2.2.1 goal := by
      intro m
      induction m with
      | nil =>
        intro a _ hlast
        simp only [List.getLast?_singleton, Option.some.injEq] at hlast
        subst hlast
        simp
      | cons b m2 ih =>
        intro a hch hlast
        rw [List.chain'_cons] at hch
        have hb := ih b hch.2 (by simpa using hlast)
        have := manhattan_adj_le hch.1 goal
        simp only [List.length_cons]
        omega
    exact hgen l2 y hchainy.1 hchainy.2
  -- adjacency and validity of the frontier crossing
  have hadjxy : Adj x y := by
    have hch := hW.2.2.1
    rw [hsplit, List.chain'_append] at hch
    have := hch.2.1
    rw [List.chain'_cons] at this
    exact this.1
  have hvaly : validP bl y := by
    apply hW.2.2.2
    rw [hsplit]
    cases l1 with
    | nil => simp
    | cons a t =>
      simp only [List.cons_append, List.tail_cons]
      exact List.mem_append_right _ (List.mem_cons_of_mem _ (List.mem_cons_self _ _))
  rcases inv.frontier x hxV y hadjxy hvaly with hyV2 | ⟨e2, he2, hcell2, hg2⟩
  · exact hyV hyV2
  · -- the heap held a strictly better entry than the popped minimum
    have hf2 : e2.1 = e2.2.1 + manhattan e2.2.2.1 goal := inv.heap_f e2 he2
    have hf : e.1 = e.2.1 + manhattan e.2.2.1 goal := inv.heap_f e hmem
    have hlen : W.length = l1.length + 2 + l2.length := by
      rw [hsplit]
      simp only [List.length_append, List.length_cons]
      omega
    have hflt : e2.1 < e.1 := by
      rw [hf2, hf, hcell2]
      have : e2.2.1 ≤ dE bl start x + 1 := hg2
      omega
    exact absurd (aLe_f (hmin e2 he2)) (by omega)

theorem relaxA_cases {bl : Grid} {goal : Pos} {g : Nat} {cur : Pos}
    (st : List AEntry × Gscore) (n : Pos) :
    (relaxA bl goal g cur st n = st ∧
        (validP bl n → ∃ old, st.2 n = some old ∧ old ≤ g + 1)) ∨
      (validP bl n ∧
        (relaxA bl goal g cur st n).1 = entryFor goal g cur n :: st.1 ∧
        (relaxA bl goal g cur st n).2
          = fun p => if p = n then some (g + 1) else st.2 p) := by
  unfold relaxA entryFor
  by_cases hv : inBoundsB n = true ∧ bl n = false
  · rw [if_pos hv]
    cases hgn : st.2 n with
    | none =>
      right
      refine ⟨hv, ?_, ?_⟩ <;> simp
    | some old =>
      by_cases hlt : g + 1 < old
      · right
        refine ⟨hv, ?_, ?_⟩ <;> simp [hlt]
      · left
        refine ⟨by simp [hlt], fun _ => ⟨old, rfl, by omega⟩⟩
  · rw [if_neg hv]
    exact Or.inl ⟨rfl, fun hval => absurd ⟨hval.1, hval.2⟩ hv⟩

theorem relax_fold {bl : Grid} {goal : Pos} {g : Nat} {cur : Pos} :
    ∀ (ns : List Pos) (st : List AEntry × Gscore),
      (∀ e ∈ (ns.foldl (relaxA bl goal g cur) st).1,
          e ∈ st.1 ∨ ∃ n ∈ ns, validP bl n ∧ e = entryFor goal g cur n) ∧
        (∀ e ∈ st.1, e ∈ (ns.foldl (relaxA bl goal g cur) st).1) ∧
        ((ns.foldl (relaxA bl goal g cur) st).1.length
          ≤ st.1.length + ns.length) ∧
        (∀ n ∈ ns, validP bl n →
          entryFor goal g cur n ∈ (ns.foldl (relaxA bl goal g cur) st).1 ∨
            ∃ old, st.2 n = some old ∧ old ≤ g + 1) ∧
        (∀ v gv, (ns.foldl (relaxA bl goal g cur) st).2 v = some gv →
          st.2 v = some gv ∨ (gv = g + 1 ∧
            entryFor goal g cur v ∈ (ns.foldl (relaxA bl goal g cur) st).1)) := by
  intro ns
  induction ns with
  | nil =>
    intro st
    refine ⟨fun e he => Or.inl he, fun e he => he, by simp, ?_, ?_⟩
    · intro n hn
      simp at hn
    · intro v gv h
      exact Or.inl h
  | cons n ns ih =>
    intro st
    simp only [List.foldl_cons]
    obtain ⟨ih1, ih2, ih3, ih4, ih5⟩ := ih (relaxA bl goal g cur st n)
    rcases relaxA_cases st n with ⟨heq, hskip⟩ | ⟨hval, hheap, hgs⟩
    · rw [heq] at ih1 ih2 ih3 ih4 ih5 ⊢
      refine ⟨?_, ih2, by simp only [List.length_cons]; omega, ?_, ?_⟩
      · intro e he
        rcases ih1 e he with he2 | ⟨m, hm, hvm, hem⟩
        · exact Or.inl he2
        · exact Or.inr ⟨m, List.mem_cons_of_mem n hm, hvm, hem⟩
      · intro m hm hvm
        rcases List.mem_cons.mp hm with rfl | hm
        · exact Or.inr (hskip hvm)
        · exact ih4 m hm hvm
      · exact ih5
    · refine ⟨?_, ?_, ?_, ?_, ?_⟩
      · intro e he
        rcases ih1 e he with he2 | ⟨m, hm, hvm, hem⟩
        · rw [hheap] at he2
          rcases List.mem_cons.mp he2 with rfl | he3
          · exact Or.inr ⟨n, List.mem_cons_self n ns, hval, rfl⟩
          · exact Or.inl he3
        · exact Or.inr ⟨m, List.mem_cons_of_mem n hm, hvm, hem⟩
      · intro e he
        exact ih2 e (by rw [hheap]; exact List.mem_cons_of_mem _ he)
      · have h1 : (relaxA bl goal g cur st n).1.length = st.1.length + 1 := by
          rw [hheap]
          simp
        simp only [List.length_cons]
        omega
      · intro m hm hvm
        rcases List.mem_cons.mp hm with rfl | hm
        · exact Or.inl (ih2 _ (by rw [hheap]; exact List.mem_cons_self _ _))
        · rcases ih4 m hm hvm with h4 | ⟨old, hold, hle⟩
          · exact Or.inl h4
          · by_cases hmn : m = n
            · subst hmn
              exact Or.inl (ih2 _ (by rw [hheap]; exact List.mem_cons_self _ _))
            · rw [hgs] at hold
              simp only [] at hold
              rw [if_neg hmn] at hold
              exact Or.inr ⟨old, hold, hle⟩
      · intro v gv h
        rcases ih5 v gv h with h2 | h2
        · rw [hgs] at h2
          simp only [] at h2
          by_cases hvn : v = n
          · subst hvn
            rw [if_pos rfl] at h2
            refine Or.inr ⟨by simpa using h2.symm, ?_⟩
            exact ih2 _ (by rw [hheap]; exact List.mem_cons_self _ _)
          · rw [if_neg hvn] at h2
            exact Or.inl h2
        · exact Or.inr h2

/-- Extending a recorded shortest parent chain by one freshly expanded
cell. -/
theorem chain_extend {bl : Grid} {start : Pos} {came : Came}
    {visited : List Pos} {p cur : Pos}
    (hvc : ∀ c ∈ visited, ∃ l, chainA came (dE bl start c + 1) c = some l ∧
      l.length = dE bl start c + 1 ∧ Walk bl start c l.reverse ∧
      ∀ q ∈ l, q ∈ visited)
    (hpv : p ∈ visited) (hcur : cur ∉ visited) (hadj : Adj p cur)
    (hval : validP bl cur) (hd : dE bl start cur = dE bl start p + 1) :
    ∃ l, chainA (fun q => if q = cur then some (some p) else came q)
        (dE bl start cur + 1) cur = some l ∧
      l.length = dE bl start cur + 1 ∧ Walk bl start cur l.reverse ∧
      ∀ q ∈ l, q ∈ cur :: visited := by
  obtain ⟨lp, hlp, hlen, hwalk, hcells⟩ := hvc p hpv
  have hlp2 : chainA (fun q => if q = cur then some (some p) else came q)
      (dE bl start p + 1) p = some lp := by
    refine chainA_congr _ _ _ hlp ?_
    intro q hq
    rw [if_neg]
    intro he
    exact hcur (he ▸ hcells q hq)
  refine ⟨cur :: lp, ?_, ?_, ?_, ?_⟩
  · rw [hd, chainA, if_pos rfl]
    dsimp only
    rw [hlp2]
    rfl
  · simp only [List.length_cons, hlen, hd]
  · rw [List.reverse_cons]
    exact walk_extend hwalk hadj hval
  · intro q hq
    rcases List.mem_cons.mp hq with rfl | hq
    · exact List.mem_cons_self _ _
    · exact List.mem_cons_of_mem _ (hcells q hq)

/-- Any walk from inside the visited set to outside it crosses the
frontier along a valid edge. -/
theorem walk_cross {bl : Grid} {start t : Pos} {W : List Pos}
    {V : List Pos} (hW : Walk bl start t W) (hs : start ∈ V) (ht : t ∉ V) :
    ∃ x y, x ∈ V ∧ y ∉ V ∧ Adj x y ∧ validP bl y := by
  obtain ⟨l1, x, y, l2, hsplit, hxV, hyV, _⟩ :=
    split_first_exit W start t hW.1 hs hW.2.1 ht
  have hch := hW.2.2.1
  rw [hsplit, List.chain'_append] at hch
  have hxy := hch.2.1
  rw [List.chain'_cons] at hxy
  refine ⟨x, y, hxV, hyV, hxy.1, ?_⟩
  apply hW.2.2.2
  rw [hsplit]
  cases l1 with
  | nil => simp
  | cons a t2 =>
    simp only [List.cons_append, List.tail_cons]
    exact List.mem_append_right _ (List.mem_cons_of_mem _ (List.mem_cons_self _ _))

/-- When the heap is exhausted, the goal was unreachable. -/
theorem exhaust_unreach {bl : Grid} {start goal : Pos} {heap : List AEntry}
    {came : Came} {gs : Gscore} {visited : List Pos}
    (inv : AInv bl start goal heap came gs visited) (hheap : heap = []) :
    ¬ Reach bl start goal := by
  rintro ⟨W, hW⟩
  obtain ⟨x, y, hx, hy, hadj, hval⟩ :=
    walk_cross hW inv.start_mem inv.goal_not_mem
  rcases inv.frontier x hx y hadj hval with h | ⟨e, he, _⟩
  · exact hy h
  · rw [hheap] at he
    simp at he

/-- The skip step (`if cur in visited: continue`) preserves the
invariant. -/
theorem skip_inv {bl : Grid} {start goal : Pos} {heap : List AEntry}
    {came : Came} {gs : Gscore} {visited : List Pos}
    (inv : AInv bl start goal heap came gs visited) {e : AEntry}
    {rest : List AEntry} (hpop : popMin aLe heap = some (e, rest))
    (hv : e.2.2.1 ∈ visited) :
    AInv bl start goal rest came gs visited := by
  obtain ⟨hmem, hrest, _⟩ := popMin_spec aLe_trans aLe_total hpop
  have hsub : ∀ e2 ∈ rest, e2 ∈ heap := by
    intro e2 he2
    rw [hrest] at he2
    exact erase_subset2 _ _ he2
  refine ⟨inv.start_mem, inv.goal_not_mem, inv.vis_nodup, inv.vis_allowed,
    inv.vis_chain, ?_, ?_, ?_, ?_, ?_⟩
  · exact fun e2 he2 => inv.heap_f e2 (hsub e2 he2)
  · exact fun e2 he2 => inv.heap_par_none e2 (hsub e2 he2)
  · exact fun e2 he2 => inv.heap_par_some e2 (hsub e2 he2)
  · intro u hu v hadj hval
    rcases inv.frontier u hu v hadj hval with h | ⟨e2, he2, hc2, hg2⟩
    · exact Or.inl h
    · by_cases hee : e2 = e
      · subst hee
        exact Or.inl (hc2 ▸ hv)
      · refine Or.inr ⟨e2, ?_, hc2, hg2⟩
        rw [hrest]
        exact (mem_erase_of_ne2 hee).mpr he2
  · intro v gv h
    rcases inv.gs_inv v gv h with h2 | ⟨e2, he2, hc2, hg2⟩
    · exact Or.inl h2
    · by_cases hee : e2 = e
      · subst hee
        exact Or.inl (hc2 ▸ hv)
      · refine Or.inr ⟨e2, ?_, hc2, hg2⟩
        rw [hrest]
        exact (mem_erase_of_ne2 hee).mpr he2

/-- The expansion step preserves the invariant. -/
theorem expand_inv {bl : Grid} {start goal : Pos} {heap : List AEntry}
    {came : Came} {gs : Gscore} {visited : List Pos}
    (inv : AInv bl start goal heap came gs visited) {e : AEntry}
    {rest : List AEntry} (hpop : popMin aLe heap = some (e, rest))
    (hnv : e.2.2.1 ∉ visited) (hng : e.2.2.1 ≠ goal) :
    AInv bl start goal (expandA bl goal rest gs e.2.1 e.2.2.1).1
      (fun p => if p = e.2.2.1 then some e.2.2.2 else came p)
      (expandA bl goal rest gs e.2.1 e.2.2.1).2 (e.2.2.1 :: visited) := by
  obtain ⟨hmem, hrestEq, _⟩ := popMin_spec aLe_trans aLe_total hpop
  obtain ⟨hgeq, hreach⟩ := pop_opt inv hpop hnv
  have hsub : ∀ e2 ∈ rest, e2 ∈ heap := by
    intro e2 he2
    rw [hrestEq] at he2
    exact erase_subset2 _ _ he2
  cases hpar : e.2.2.2 with
  | none =>
    obtain ⟨hc, _⟩ := inv.heap_par_none e hmem hpar
    exact absurd (hc ▸ inv.start_mem) hnv
  | some p =>
  obtain ⟨hpv, hadj, hval, hgp⟩ := inv.heap_par_some e hmem p hpar
  have hd : dE bl start e.2.2.1 = dE bl start p + 1 := by rw [← hgeq, hgp]
  have hE : expandA bl goal rest gs e.2.1 e.2.2.1
      = (neighbors e.2.2.1).foldl (relaxA bl goal e.2.1 e.2.2.1) (rest, gs) := rfl
  obtain ⟨F1, F2, F3, F4, F5⟩ :=
    @relax_fold bl goal e.2.1 e.2.2.1
      (neighbors e.2.2.1) (rest, gs)
  rw [hE]
  refine ⟨List.mem_cons_of_mem _ inv.start_mem, ?_,
    List.nodup_cons.mpr ⟨hnv, inv.vis_nodup⟩, ?_, ?_, ?_, ?_, ?_, ?_, ?_⟩
  · intro h
    rcases List.mem_cons.mp h with h | h
    · exact hng h.symm
    · exact inv.goal_not_mem h
  · intro c hc
    rcases List.mem_cons.mp hc with rfl | hc
    · exact Or.inl hval
    · exact inv.vis_allowed c hc
  · intro c hc
    rcases List.mem_cons.mp hc with rfl | hc
    · exact chain_extend inv.vis_chain hpv hnv hadj hval hd
    · obtain ⟨l, hl, hlen, hwalk, hcells⟩ := inv.vis_chain c hc
      refine ⟨l, ?_, hlen, hwalk, fun q hq => List.mem_cons_of_mem _ (hcells q hq)⟩
      refine chainA_congr _ _ _ hl ?_
      intro q hq
      rw [if_neg]
      intro he
      exact hnv (he ▸ hcells q hq)
  · intro e2 he2
    rcases F1 e2 he2 with h | ⟨n, _, _, rfl⟩
    · exact inv.heap_f e2 (hsub e2 h)
    · rfl
  · intro e2 he2 hp2
    rcases F1 e2 he2 with h | ⟨n, _, _, rfl⟩
    · exact inv.heap_par_none e2 (hsub e2 h) hp2
    · simp [entryFor] at hp2
  · intro e2 he2 q hq2
    rcases F1 e2 he2 with h | ⟨n, hn, hvn, rfl⟩
    · obtain ⟨h1, h2, h3, h4⟩ := inv.heap_par_some e2 (hsub e2 h) q hq2
      exact ⟨List.mem_cons_of_mem _ h1, h2, h3, h4⟩
    · have hq : q = e.2.2.1 := by
        simpa [entryFor] using hq2.symm
      subst hq
      refine ⟨List.mem_cons_self _ _, ?_, hvn, ?_⟩
      · exact mem_neighbors_iff.mp hn
      · show e.2.1 + 1 = dE bl start e.2.2.1 + 1
        omega
  · intro u hu v hadjv hvalv
    rcases List.mem_cons.mp hu with rfl | hu
    · rcases F4 v (mem_neighbors_iff.mpr hadjv) hvalv with h | ⟨old, hold, hle⟩
      · refine Or.inr ⟨entryFor goal e.2.1 e.2.2.1 v, h, rfl, ?_⟩
        show e.2.1 + 1 ≤ dE bl start e.2.2.1 + 1
        omega
      · rcases inv.gs_inv v old hold with h2 | ⟨e2, he2, hc2, hg2⟩
        · exact Or.inl (List.mem_cons_of_mem _ h2)
        · have hvne : v ≠ e.2.2.1 := (adj_ne hadjv).symm
          have hene : e2 ≠ e := by
            intro he
            rw [he] at hc2
            exact hvne hc2.symm
          refine Or.inr ⟨e2, F2 e2 ?_, hc2, ?_⟩
          · show e2 ∈ rest
            rw [hrestEq]
            exact (mem_erase_of_ne2 hene).mpr he2
          · omega
    · rcases inv.frontier u hu v hadjv hvalv with h | ⟨e2, he2, hc2, hg2⟩
      · exact Or.inl (List.mem_cons_of_mem _ h)
      · by_cases hee : e2 = e
        · subst hee
          exact Or.inl (hc2 ▸ List.mem_cons_self _ _)
        · refine Or.inr ⟨e2, F2 e2 ?_, hc2, hg2⟩
          show e2 ∈ rest
          rw [hrestEq]
          exact (mem_erase_of_ne2 hee).mpr he2
  · intro v gv h
    rcases F5 v gv h with h2 | ⟨rfl, hmem2⟩
    · rcases inv.gs_inv v gv h2 with h3 | ⟨e2, he2, hc2, hg2⟩
      · exact Or.inl (List.mem_cons_of_mem _ h3)
      · by_cases hee : e2 = e
        · subst hee
          exact Or.inl (hc2 ▸ List.mem_cons_self _ _)
        · refine Or.inr ⟨e2, F2 e2 ?_, hc2, hg2⟩
          show e2 ∈ rest
          rw [hrestEq]
          exact (mem_erase_of_ne2 hee).mpr he2
    · exact Or.inr ⟨entryFor goal e.2.1 e.2.2.1 v, hmem2, rfl, le_refl _⟩

theorem astarLoop_step_skip {bl : Grid} {goal : Pos} {n : Nat}
    {heap : List AEntry} {came : Came} {gs : Gscore} {visited : List Pos}
    {e : AEntry} {rest : List AEntry}
    (hpop : popMin aLe heap = some (e, rest)) (hv : e.2.2.1 ∈ visited) :
    astarLoop bl goal (n + 1) heap came gs visited
      = astarLoop bl goal n rest came gs visited := by
  rw [astarLoop, hpop]
  simp only [if_pos hv]

theorem astarLoop_step_goal {bl : Grid} {goal : Pos} {n : Nat}
    {heap : List AEntry} {came : Came} {gs : Gscore} {visited : List Pos}
    {e : AEntry} {rest : List AEntry}
    (hpop : popMin aLe heap = some (e, rest)) (hv : e.2.2.1 ∉ visited)
    (hg : e.2.2.1 = goal) :
    astarLoop bl goal (n + 1) heap came gs visited
      = (chainA (fun p => if p = e.2.2.1 then some e.2.2.2 else came p)
          (e.2.1 + 1) e.2.2.1).map List.reverse := by
  rw [astarLoop, hpop]
  simp only [if_neg hv, if_pos hg]

theorem astarLoop_step_expand {bl : Grid} {goal : Pos} {n : Nat}
    {heap : List AEntry} {came : Came} {gs : Gscore} {visited : List Pos}
    {e : AEntry} {rest : List AEntry}
    (hpop : popMin aLe heap = some (e, rest)) (hv : e.2.2.1 ∉ visited)
    (hg : e.2.2.1 ≠ goal) :
    astarLoop bl goal (n + 1) heap came gs visited
      = astarLoop bl goal n (expandA bl goal rest gs e.2.1 e.2.2.1).1
          (fun p => if p = e.2.2.1 then some e.2.2.2 else came p)
          (expandA bl goal rest gs e.2.1 e.2.2.1).2 (e.2.2.1 :: visited) := by
  rw [astarLoop, hpop]
  simp only [if_neg hv, if_neg hg]

/-- The master lemma of the `astar` loop: from any state satisfying the
invariant, with fuel above the termination measure, the loop returns;
the result is `[]` exactly on an unreachable goal and otherwise an
optimal walk. -/
theorem astarLoop_master {bl : Grid} {start goal : Pos} (hsg : start ≠ goal) :
    ∀ (fuel : Nat) (heap : List AEntry) (came : Came) (gs : Gscore)
      (visited : List Pos),
      AInv bl start goal heap came gs visited →
      heap.length + 5 * (701 - visited.length) < fuel →
      ∃ l, astarLoop bl goal fuel heap came gs visited = some l ∧
        ((l = [] ∧ ¬ Reach bl start goal) ∨
          (Walk bl start goal l ∧ l.length = dE bl start goal + 1)) := by
  intro fuel
  induction fuel with
  | zero =>
    intro heap came gs visited _ hF
    omega
  | succ n ih =>
    intro heap came gs visited inv hF
    cases hpop : popMin aLe heap with
    | none =>
      refine ⟨[], ?_, Or.inl ⟨rfl, exhaust_unreach inv (popMin_eq_none.mp hpop)⟩⟩
      rw [astarLoop, hpop]
    | some er =>
      obtain ⟨e, rest⟩ := er
      obtain ⟨hmem, hrestEq, _⟩ := popMin_spec aLe_trans aLe_total hpop
      have hrl : rest.length = heap.length - 1 := by
        rw [hrestEq]
        exact length_erase2 hmem
      have hhl : 1 ≤ heap.length := List.length_pos.mpr (List.ne_nil_of_mem hmem)
      by_cases hv : e.2.2.1 ∈ visited
      · rw [astarLoop_step_skip hpop hv]
        exact ih rest came gs visited (skip_inv inv hpop hv) (by omega)
      · by_cases hg : e.2.2.1 = goal
        · -- the goal is popped: reconstruct the optimal path
          obtain ⟨hgeq, hreach⟩ := pop_opt inv hpop hv
          cases hpar : e.2.2.2 with
          | none =>
            obtain ⟨hc, _⟩ := inv.heap_par_none e hmem hpar
            exact absurd (hc.symm.trans hg) hsg
          | some p =>
            obtain ⟨hpv, hadj, hval, hgp⟩ := inv.heap_par_some e hmem p hpar
            have hd : dE bl start e.2.2.1 = dE bl start p + 1 := by
              rw [← hgeq, hgp]
            obtain ⟨l, hl, hlen, hwalk, _⟩ :=
              chain_extend inv.vis_chain hpv hv hadj hval hd
            refine ⟨l.reverse, ?_, Or.inr ⟨hg ▸ hwalk, ?_⟩⟩
            · rw [astarLoop_step_goal hpop hv hg, hpar, hgeq, hl]
              rfl
            · rw [List.length_reverse, hlen, hg]
        · -- ordinary expansion
          rw [astarLoop_step_expand hpop hv hg]
          have inv2 := expand_inv inv hpop hv hg
          have hv701 : (e.2.2.1 :: visited).length ≤ 701 :=
            visited_card_le inv2.vis_nodup inv2.vis_allowed
          have hlen4 : (expandA bl goal rest gs e.2.1 e.2.2.1).1.length
              ≤ rest.length + 4 := by
            obtain ⟨_, _, F3, _, _⟩ :=
              @relax_fold bl goal e.2.1 e.2.2.1 (neighbors e.2.2.1) (rest, gs)
            simpa [neighbors] using F3
          refine ih _ _ _ _ inv2 ?_
          simp only [List.length_cons] at hv701 ⊢
          omega
  -- end of induction

theorem astar_master (bl : Grid) (s g : Pos) :
    ∃ l, astar bl s g = some l ∧
      ((s = g ∧ l = [s]) ∨ (l = [] ∧ ¬ Reach bl s g) ∨
        (s ≠ g ∧ Walk bl s g l ∧ l.length = dE bl s g + 1)) := by
  by_cases hsg : s = g
  · refine ⟨[s], ?_, Or.inl ⟨hsg, rfl⟩⟩
    rw [astar, if_pos hsg]
  · -- run the first iteration by hand, establish the invariant, recurse
    have hstep : astar bl s g
        = astarLoop bl g FUEL [(manhattan s g, 0, s, none)]
            (fun _ => none) (fun p => if p = s then some 0 else none) [] := by
      rw [astar, if_neg hsg]
    have hpop0 : popMin aLe [((manhattan s g, 0, s, none) : AEntry)]
        = some ((manhattan s g, 0, s, none), []) := by
      unfold popMin
      rw [show minimumBy aLe [((manhattan s g, 0, s, none) : AEntry)]
          = some (manhattan s g, 0, s, none) from rfl]
      dsimp only
      rw [erase_cons_head2]
    have hFUEL : FUEL = 3999 + 1 := rfl
    have hexp : astarLoop bl g FUEL [(manhattan s g, 0, s, none)]
        (fun _ => none) (fun p => if p = s then some 0 else none) []
        = astarLoop bl g 3999
            (expandA bl g [] (fun p => if p = s then some 0 else none) 0 s).1
            (fun p => if p = s then some (none : Option Pos) else none)
            (expandA bl g [] (fun p => if p = s then some 0 else none) 0 s).2
            [s] := by
      rw [hFUEL]
      exact astarLoop_step_expand hpop0 (by simp) hsg
    obtain ⟨F1, F2, F3, F4, F5⟩ :=
      @relax_fold bl g 0 s (neighbors s)
        ([], fun p => if p = s then some 0 else none)
    have hds : dE bl s s = 0 := dE_self bl s
    have inv1 : AInv bl s g
        (expandA bl g [] (fun p => if p = s then some 0 else none) 0 s).1
        (fun p => if p = s then some (none : Option Pos) else none)
        (expandA bl g [] (fun p => if p = s then some 0 else none) 0 s).2
        [s] := by
      refine ⟨List.mem_singleton_self s, ?_, List.nodup_singleton s, ?_, ?_,
        ?_, ?_, ?_, ?_, ?_⟩
      · intro h
        rw [List.mem_singleton] at h
        exact hsg h.symm
      · intro c hc
        rw [List.mem_singleton] at hc
        exact Or.inr hc
      · intro c hc
        rw [List.mem_singleton] at hc
        subst hc
        refine ⟨[c], ?_, by simp [hds], by simpa using walk_single bl c, ?_⟩
        · rw [hds, chainA, if_pos rfl]
        · intro q hq
          simpa using hq
      · intro e2 he2
        rcases F1 e2 he2 with h | ⟨m, _, _, rfl⟩
        · simp at h
        · rfl
      · intro e2 he2 hp2
        rcases F1 e2 he2 with h | ⟨m, _, _, rfl⟩
        · simp at h
        · simp [entryFor] at hp2
      · intro e2 he2 q hq2
        rcases F1 e2 he2 with h | ⟨m, hm, hvm, rfl⟩
        · simp at h
        · have hq : q = s := by simpa [entryFor] using hq2.symm
          refine ⟨?_, ?_, hvm, ?_⟩
          · rw [hq]
            exact List.mem_singleton_self s
          · rw [hq]
            exact mem_neighbors_iff.mp hm
          · show 0 + 1 = dE bl s q + 1
            rw [hq, hds]
      · intro u hu v hadjv hvalv
        rw [List.mem_singleton] at hu
        rcases F4 v (mem_neighbors_iff.mpr (hu ▸ hadjv)) hvalv with h | ⟨old, hold, hle⟩
        · refine Or.inr ⟨entryFor g 0 s v, h, rfl, ?_⟩
          show 0 + 1 ≤ dE bl s u + 1
          omega
        · have hvs : v ≠ s := by
            rw [← hu]
            exact (adj_ne hadjv).symm
          have hold2 : (if v = s then (some 0 : Option Nat) else none)
              = some old := hold
          rw [if_neg hvs] at hold2
          simp at hold2
      · intro v gv hgv
        rcases F5 v gv hgv with h2 | ⟨rfl, hmem2⟩
        · by_cases hvs : v = s
          · exact Or.inl (hvs ▸ List.mem_singleton_self s)
          · have h3 : (if v = s then (some 0 : Option Nat) else none)
                = some gv := h2
            rw [if_neg hvs] at h3
            simp at h3
        · exact Or.inr ⟨entryFor g 0 s v, hmem2, rfl, le_refl _⟩
    have hF1 : (expandA bl g [] (fun p => if p = s then some 0 else none) 0 s).1.length
        + 5 * (701 - ([s] : List Pos).length) < 3999 := by
      have h4 : (expandA bl g [] (fun p => if p = s then some 0 else none) 0 s).1.length
          ≤ 4 := by
        simpa [neighbors] using F3
      simp only [List.length_singleton]
      omega
    obtain ⟨l, hl, hres⟩ := astarLoop_master hsg 3999 _ _ _ _ inv1 hF1
    refine ⟨l, ?_, ?_⟩
    · rw [hstep, hexp, hl]
    · rcases hres with h | h
      · exact Or.inr (Or.inl h)
      · exact Or.inr (Or.inr ⟨hsg, h⟩)

/-- C1.  For every grid, every passable start and every goal reachable
from it, the A* variant of `findPath` returns a path that begins at the
start, ends at the goal, moves only along axis-adjacent in-bounds
passable cells (unit cost per step), and whose length is minimal among
all such paths. -/
theorem c1_astar_optimal (bl : Grid) (s g : Pos) (hs : validP bl s)
    (hr : Reach bl s g) :
    ∃ l, findPath bl "astar" s g = some l ∧
      l.head? = some s ∧ l.getLast? = some g ∧ List.Chain' Adj l ∧
      (∀ p ∈ l, validP bl p) ∧
      ∀ l2, l2.head? = some s → l2.getLast? = some g → List.Chain' Adj l2 →
        (∀ p ∈ l2, validP bl p) → l.length ≤ l2.length := by
  obtain ⟨l, hl, hres⟩ := astar_master bl s g
  have hfp : findPath bl "astar" s g = some l := by
    rw [findPath, if_pos rfl]
    exact hl
  rcases hres with ⟨rfl, rfl⟩ | ⟨rfl, hnr⟩ | ⟨hsg, hwalk, hlen⟩
  · refine ⟨[s], hfp, rfl, rfl, List.chain'_singleton s, ?_, ?_⟩
    · intro p hp
      rw [List.mem_singleton] at hp
      rw [hp]
      exact hs
    · intro l2 h1 _ _ _
      have : l2 ≠ [] := by
        intro he
        rw [he] at h1
        simp at h1
      have := List.length_pos.mpr this
      simpa using this
  · exact absurd hr hnr
  · refine ⟨l, hfp, hwalk.1, hwalk.2.1, hwalk.2.2.1, ?_, ?_⟩
    · intro p hp
      cases hlc : l with
      | nil =>
        rw [hlc] at hp
        simp at hp
      | cons a t =>
        have ha : a = s := by
          have := hwalk.1
          rw [hlc] at this
          simpa using this
        rw [hlc] at hp
        rcases List.mem_cons.mp hp with rfl | hp
        · rw [ha]
          exact hs
        · apply hwalk.2.2.2
          rw [hlc]
          simpa using hp
    · intro l2 h1 h2 h3 h4
      have hw2 : Walk bl s g l2 :=
        ⟨h1, h2, h3, fun p hp => h4 p (List.mem_of_mem_tail hp)⟩
      have := dE_le hw2
      omega

theorem c1_astar_optimal_witness :
    validP (fun _ => false) (0, 0) ∧ Reach (fun _ => false) (0, 0) (2, 0) ∧
      (∃ l, findPath (fun _ => false) "astar" (0, 0) (2, 0) = some l ∧
        l.head? = some (0, 0) ∧ l.getLast? = some (2, 0) ∧ List.Chain' Adj l ∧
        (∀ p ∈ l, validP (fun _ => false) p) ∧
        ∀ l2, l2.head? = some (0, 0) → l2.getLast? = some (2, 0) →
          List.Chain' Adj l2 → (∀ p ∈ l2, validP (fun _ => false) p) →
          l.length ≤ l2.length) :=
  ⟨by decide, ⟨[(0, 0), (1, 0), (2, 0)], by decide⟩,
    c1_astar_optimal (fun _ => false) (0, 0) (2, 0) (by decide)
      ⟨[(0, 0), (1, 0), (2, 0)], by decide⟩⟩

/-! ### Dijkstra loop invariants -/

theorem relaxD_cases {bl : Grid} {d : Nat} {cur : Pos}
    (st : List DEntry × Dist × Prev) (n : Pos) :
    (relaxD bl d cur st n = st ∧
        (validP bl n → ∃ old, st.2.1 n = some old ∧ old ≤ d + 1)) ∨
      (validP bl n ∧
        (relaxD bl d cur st n).1 = (d + 1, n) :: st.1 ∧
        (relaxD bl d cur st n).2.1
          = (fun p => if p = n then some (d + 1) else st.2.1 p) ∧
        (relaxD bl d cur st n).2.2
          = (fun p => if p = n then some cur else st.2.2 p) ∧
        (∀ old, st.2.1 n = some old → d + 1 < old)) := by
  unfold relaxD
  by_cases hv : inBoundsB n = true ∧ bl n = false
  · rw [if_pos hv]
    cases hgn : st.2.1 n with
    | none =>
      right
      refine ⟨hv, by simp, by simp, by simp, ?_⟩
      intro old h
      simp at h
    | some old =>
      by_cases hlt : d + 1 < old
      · right
        refine ⟨hv, by simp [hlt], by simp [hlt], by simp [hlt], ?_⟩
        intro old2 h
        obtain rfl : old = old2 := by simpa using h
        exact hlt
      · left
        refine ⟨by simp [hlt], fun _ => ⟨old, rfl, by omega⟩⟩
  · rw [if_neg hv]
    exact Or.inl ⟨rfl, fun hval => absurd ⟨hval.1, hval.2⟩ hv⟩

theorem relaxD_fold {bl : Grid} {d : Nat} {cur : Pos} :
    ∀ (ns : List Pos) (st : List DEntry × Dist × Prev),
      (∀ e ∈ (ns.foldl (relaxD bl d cur) st).1,
          e ∈ st.1 ∨ ∃ n ∈ ns, validP bl n ∧ e = (d + 1, n) ∧
            ∃ dv, (ns.foldl (relaxD bl d cur) st).2.1 n = some dv ∧
              dv ≤ d + 1) ∧
        (∀ e ∈ st.1, e ∈ (ns.foldl (relaxD bl d cur) st).1) ∧
        ((ns.foldl (relaxD bl d cur) st).1.length ≤ st.1.length + ns.length) ∧
        (∀ n ∈ ns, validP bl n →
          ((d + 1, n) : DEntry) ∈ (ns.foldl (relaxD bl d cur) st).1 ∨
            ∃ old, st.2.1 n = some old ∧ old ≤ d + 1) ∧
        (∀ v dv, (ns.foldl (relaxD bl d cur) st).2.1 v = some dv →
          st.2.1 v = some dv ∨ (dv = d + 1 ∧
            ((d + 1, v) : DEntry) ∈ (ns.foldl (relaxD bl d cur) st).1 ∧
            (ns.foldl (relaxD bl d cur) st).2.2 v = some cur ∧
            v ∈ ns ∧ validP bl v)) ∧
        (∀ v, (ns.foldl (relaxD bl d cur) st).2.2 v = st.2.2 v ∨
          (v ∈ ns ∧ validP bl v ∧
            (ns.foldl (relaxD bl d cur) st).2.2 v = some cur ∧
            (ns.foldl (relaxD bl d cur) st).2.1 v = some (d + 1) ∧
            ∀ old, st.2.1 v = some old → d + 1 < old)) ∧
        (∀ v dv, st.2.1 v = some dv → dv ≤ d + 1 →
          (ns.foldl (relaxD bl d cur) st).2.1 v = st.2.1 v ∧
          (ns.foldl (relaxD bl d cur) st).2.2 v = st.2.2 v) ∧
        (∀ v, v ∉ ns →
          (ns.foldl (relaxD bl d cur) st).2.1 v = st.2.1 v ∧
          (ns.foldl (relaxD bl d cur) st).2.2 v = st.2.2 v) ∧
        (∀ v dv, st.2.1 v = some dv →
          ∃ dv2, (ns.foldl (relaxD bl d cur) st).2.1 v = some dv2 ∧ dv2 ≤ dv) := by
  intro ns
  induction ns with
  | nil =>
    intro st
    refine ⟨fun e he => Or.inl he, fun e he => he, by simp, ?_, ?_, ?_, ?_, ?_, ?_⟩
    · intro n hn
      simp at hn
    · intro v dv h
      exact Or.inl h
    · intro v
      exact Or.inl rfl
    · intro v dv h _
      exact ⟨rfl, rfl⟩
    · intro v _
      exact ⟨rfl, rfl⟩
    · intro v dv h
      exact ⟨dv, h, le_refl dv⟩
  | cons n ns ih =>
    intro st
    simp only [List.foldl_cons]
    obtain ⟨ih1, ih2, ih3, ih4, ih5, ih6, ih7, ih8, ih9⟩ :=
      ih (relaxD bl d cur st n)
    rcases relaxD_cases st n with ⟨heq, hskip⟩ | ⟨hval, hpq, hdist, hprev, hfire⟩
    · rw [heq] at ih1 ih2 ih3 ih4 ih5 ih6 ih7 ih8 ih9 ⊢
      refine ⟨?_, ih2, by simp only [List.length_cons]; omega, ?_, ?_, ?_, ih7, ?_, ih9⟩
      · intro e he
        rcases ih1 e he with h | ⟨m, hm, hvm, hem, hdv⟩
        · exact Or.inl h
        · exact Or.inr ⟨m, List.mem_cons_of_mem n hm, hvm, hem, hdv⟩
      · intro m hm hvm
        rcases List.mem_cons.mp hm with rfl | hm
        · exact Or.inr (hskip hvm)
        · exact ih4 m hm hvm
      · intro v dv h
        rcases ih5 v dv h with h2 | ⟨hdv, hmem, hprev2, hns, hv2⟩
        · exact Or.inl h2
        · exact Or.inr ⟨hdv, hmem, hprev2, List.mem_cons_of_mem n hns, hv2⟩
      · intro v
        rcases ih6 v with h | ⟨hns, hv2, hp2, hd2, hb2⟩
        · exact Or.inl h
        · exact Or.inr ⟨List.mem_cons_of_mem n hns, hv2, hp2, hd2, hb2⟩
      · intro v hv2
        exact ih8 v (fun hm => hv2 (List.mem_cons_of_mem n hm))
    · -- the relaxation fired at n
      have hstep1 : (relaxD bl d cur st n).2.1 n = some (d + 1) := by
        rw [hdist]
        simp
      have hD7 := ih7 n (d + 1) hstep1 (le_refl _)
      refine ⟨?_, ?_, ?_, ?_, ?_, ?_, ?_, ?_, ?_⟩
      · intro e he
        rcases ih1 e he with h | ⟨m, hm, hvm, hem, hdv⟩
        · rw [hpq] at h
          rcases List.mem_cons.mp h with rfl | h2
          · refine Or.inr ⟨n, List.mem_cons_self n ns, hval, rfl, d + 1, ?_, le_refl _⟩
            rw [hD7.1, hstep1]
          · exact Or.inl h2
        · exact Or.inr ⟨m, List.mem_cons_of_mem n hm, hvm, hem, hdv⟩
      · intro e he
        exact ih2 e (by rw [hpq]; exact List.mem_cons_of_mem _ he)
      · have h1 : (relaxD bl d cur st n).1.length = st.1.length + 1 := by
          rw [hpq]
          simp
        simp only [List.length_cons]
        omega
      · intro m hm hvm
        rcases List.mem_cons.mp hm with rfl | hm
        · exact Or.inl (ih2 _ (by rw [hpq]; exact List.mem_cons_self _ _))
        · rcases ih4 m hm hvm with h4 | ⟨old, hold, hle⟩
          · exact Or.inl h4
          · by_cases hmn : m = n
            · subst hmn
              exact Or.inl (ih2 _ (by rw [hpq]; exact List.mem_cons_self _ _))
            · rw [hdist] at hold
              simp only [] at hold
              rw [if_neg hmn] at hold
              exact Or.inr ⟨old, hold, hle⟩
      · intro v dv h
        rcases ih5 v dv h with h2 | ⟨hdv, hmem, hprev2, hns, hv2⟩
        · rw [hdist] at h2
          simp only [] at h2
          by_cases hvn : v = n
          · subst hvn
            rw [if_pos rfl] at h2
            obtain rfl : dv = d + 1 := by simpa using h2.symm
            refine Or.inr ⟨rfl, ih2 _ (by rw [hpq]; exact List.mem_cons_self _ _),
              ?_, List.mem_cons_self _ _, hval⟩
            rw [hD7.2, hprev]
            simp
          · rw [if_neg hvn] at h2
            exact Or.inl h2
        · exact Or.inr ⟨hdv, hmem, hprev2, List.mem_cons_of_mem n hns, hv2⟩
      · intro v
        rcases ih6 v with h | ⟨hns, hv2, hp2, hd2, hb2⟩
        · rw [hprev] at h
          simp only [] at h
          by_cases hvn : v = n
          · subst hvn
            rw [if_pos rfl] at h
            refine Or.inr ⟨List.mem_cons_self _ _, hval, h, ?_, hfire⟩
            rw [hD7.1, hstep1]
          · rw [if_neg hvn] at h
            exact Or.inl h
        · by_cases hvn : v = n
          · subst hvn
            exact absurd (hb2 (d + 1) hstep1) (by omega)
          · refine Or.inr ⟨List.mem_cons_of_mem n hns, hv2, hp2, hd2, ?_⟩
            intro old hold
            apply hb2
            rw [hdist]
            simp only []
            rw [if_neg hvn]
            exact hold
      · intro v dv hv2 hle
        have hvn : v ≠ n := by
          intro he
          subst he
          exact absurd (hfire dv hv2) (by omega)
        have hkeep1 : (relaxD bl d cur st n).2.1 v = st.2.1 v := by
          rw [hdist]
          simp only []
          rw [if_neg hvn]
        have hkeep2 : (relaxD bl d cur st n).2.2 v = st.2.2 v := by
          rw [hprev]
          simp only []
          rw [if_neg hvn]
        have := ih7 v dv (by rw [hkeep1]; exact hv2) hle
        rw [hkeep1, hkeep2] at this
        exact this
      · intro v hv2
        have hvn : v ≠ n := fun he => hv2 (he ▸ List.mem_cons_self n ns)
        have hvns : v ∉ ns := fun hm => hv2 (List.mem_cons_of_mem n hm)
        have hkeep1 : (relaxD bl d cur st n).2.1 v = st.2.1 v := by
          rw [hdist]
          simp only []
          rw [if_neg hvn]
        have hkeep2 : (relaxD bl d cur st n).2.2 v = st.2.2 v := by
          rw [hprev]
          simp only []
          rw [if_neg hvn]
        have := ih8 v hvns
        rw [hkeep1, hkeep2] at this
        exact this
      · intro v dv hv2
        by_cases hvn : v = n
        · subst hvn
          obtain ⟨dv2, hdv2, hle2⟩ := ih9 v (d + 1) hstep1
          exact ⟨dv2, hdv2, le_trans hle2 (le_of_lt (hfire dv hv2))⟩
        · have hkeep1 : (relaxD bl d cur st n).2.1 v = st.2.1 v := by
            rw [hdist]
            simp only []
            rw [if_neg hvn]
          exact ih9 v dv (by rw [hkeep1]; exact hv2)

theorem chainD_congr {prev prev' : Prev} {start : Pos} :
    ∀ (fuel : Nat) (p : Pos) (l : List Pos),
      chainD prev start fuel p = some l → l.getLast? = some start →
      (∀ q ∈ l, prev' q = prev q) → chainD prev' start fuel p = some l := by
  intro fuel
  induction fuel with
  | zero => intro p l h _ _; simp [chainD] at h
  | succ n ih =>
    intro p l h hlast hq
    rw [chainD] at h ⊢
    cases hc : prev p with
    | some q =>
      rw [hc] at h
      dsimp only at h
      by_cases hps : p = start
      · rw [if_pos hps] at h
        obtain rfl : l = [p] := by simpa using h.symm
        rw [hq p (by simp), hc]
        dsimp only
        rw [if_pos hps]
      · rw [if_neg hps] at h
        cases hch : chainD prev start n q with
        | none => rw [hch] at h; simp at h
        | some l2 =>
          rw [hch] at h
          obtain rfl : l = p :: l2 := by simpa using h.symm
          have hl2ne : l2 ≠ [] := by
            intro he
            subst he
            simp only [List.getLast?_singleton, Option.some.injEq] at hlast
            exact hps hlast
          have hlast2 : l2.getLast? = some start := by
            rcases l2 with _ | ⟨b, t⟩
            · exact absurd rfl hl2ne
            · rw [List.getLast?_cons_cons] at hlast
              exact hlast
          rw [hq p (List.mem_cons_self p l2), hc]
          dsimp only
          rw [if_neg hps,
            ih q l2 hch hlast2 (fun r hr => hq r (List.mem_cons_of_mem p hr))]
          rfl
    | none =>
      rw [hc] at h
      dsimp only at h
      by_cases hps : p = start
      · rw [if_pos hps] at h
        obtain rfl : l = [p] := by simpa using h.symm
        rw [hq p (by simp), hc]
        dsimp only
        rw [if_pos hps]
      · rw [if_neg hps] at h
        obtain rfl : l = [] := by simpa using h.symm
        simp at hlast

/-- A minimal walk leaving the visited set crosses the frontier at a
cell whose distance is below the walk's edge count. -/
theorem walk_cross_bound {bl : Grid} {start t : Pos} {W : List Pos}
    {V : List Pos} (hW : Walk bl start t W) (hs : start ∈ V) (ht : t ∉ V) :
    ∃ x y, x ∈ V ∧ y ∉ V ∧ Adj x y ∧ validP bl y ∧
      dE bl start x + 1 ≤ W.length - 1 := by
  obtain ⟨l1, x, y, l2, hsplit, hxV, hyV, _⟩ :=
    split_first_exit W start t hW.1 hs hW.2.1 ht
  have hch := hW.2.2.1
  rw [hsplit, List.chain'_append] at hch
  have hxy := hch.2.1
  rw [List.chain'_cons] at hxy
  have hvaly : validP bl y := by
    apply hW.2.2.2
    rw [hsplit]
    cases l1 with
    | nil => simp
    | cons a t2 =>
      simp only [List.cons_append, List.tail_cons]
      exact List.mem_append_right _ (List.mem_cons_of_mem _ (List.mem_cons_self _ _))
  have hpre : Walk bl start x (l1 ++ [x]) := by
    refine ⟨?_, List.getLast?_concat _, ?_, ?_⟩
    · have := hW.1
      rw [hsplit] at this
      cases l1 with
      | nil => simpa using this
      | cons a t2 => simpa using this
    · rw [List.chain'_append]
      refine ⟨hch.1, List.chain'_singleton x, ?_⟩
      intro u hu v hv
      simp only [List.head?_cons, Option.mem_def, Option.some.injEq] at hv
      subst hv
      exact hch.2.2 u hu x (by simp)
    · intro p hp
      apply hW.2.2.2
      rw [hsplit]
      cases l1 with
      | nil => simp at hp
      | cons a t2 =>
        simp only [List.cons_append, List.tail_cons] at hp ⊢
        rcases List.mem_append.mp hp with hp | hp
        · exact List.mem_append_left _ hp
        · simp only [List.mem_singleton] at hp
          subst hp
          exact List.mem_append_right _ (List.mem_cons_self _ _)
  have hdx : dE bl start x + 1 ≤ l1.length + 1 := by
    have := dE_le hpre
    simpa using this
  have hlenW : W.length = l1.length + 2 + l2.length := by
    rw [hsplit]
    simp only [List.length_append, List.length_cons]
    omega
  exact ⟨x, y, hxV, hyV, hxy.1, hvaly, by omega⟩

/-- Dijkstra pop-optimality: a freshly popped cell's key is its true
shortest distance. -/
theorem popD_opt {bl : Grid} {start goal : Pos} {pq : List DEntry}
    {dist : Dist} {prev : Prev} {visited : List Pos}
    (inv : DInv bl start goal pq dist prev visited) {e : DEntry}
    {rest : List DEntry} (hpop : popMin dLe pq = some (e, rest))
    (hnv : e.2 ∉ visited) :
    e.1 = dE bl start e.2 ∧ Reach bl start e.2 := by
  obtain ⟨hmem, hrest, hmin⟩ := popMin_spec dLe_trans dLe_total hpop
  have hub : Reach bl start e.2 ∧ dE bl start e.2 ≤ e.1 := by
    rcases inv.pq_entry e hmem with ⟨hc, hd0⟩ | ⟨u, hu, hadj, hval, hd⟩
    · rw [hc, hd0, dE_self]
      exact ⟨reach_self bl start, le_refl 0⟩
    · obtain ⟨l, _, _, hw, _⟩ := inv.vis_chain u hu
      obtain ⟨hr, hdle⟩ := dE_step ⟨l.reverse, hw⟩ hadj hval
      exact ⟨hr, by omega⟩
  refine ⟨le_antisymm ?_ hub.2, hub.1⟩
  by_contra hlt
  push_neg at hlt
  obtain ⟨W, hW, hWlen⟩ := dE_exists hub.1
  obtain ⟨x, y, hxV, hyV, hadjxy, hvaly, hbound⟩ :=
    walk_cross_bound hW inv.start_mem hnv
  rcases inv.frontier x hxV y hadjxy hvaly with h | ⟨e2, he2, hc2, hg2⟩
  · exact hyV h
  · have : e2.1 < e.1 := by omega
    exact absurd (dLe_d (hmin e2 he2)) (by omega)

theorem exhaustD_unreach {bl : Grid} {start goal : Pos} {pq : List DEntry}
    {dist : Dist} {prev : Prev} {visited : List Pos}
    (inv : DInv bl start goal pq dist prev visited) (hpq : pq = []) :
    ¬ Reach bl start goal := by
  rintro ⟨W, hW⟩
  obtain ⟨x, y, hx, hy, hadj, hval⟩ :=
    walk_cross hW inv.start_mem inv.goal_not_mem
  rcases inv.frontier x hx y hadj hval with h | ⟨e, he, _⟩
  · exact hy h
  · rw [hpq] at he
    simp at he

theorem skipD_inv {bl : Grid} {start goal : Pos} {pq : List DEntry}
    {dist : Dist} {prev : Prev} {visited : List Pos}
    (inv : DInv bl start goal pq dist prev visited) {e : DEntry}
    {rest : List DEntry} (hpop : popMin dLe pq = some (e, rest))
    (hv : e.2 ∈ visited) :
    DInv bl start goal rest dist prev visited := by
  obtain ⟨hmem, hrest, _⟩ := popMin_spec dLe_trans dLe_total hpop
  have hsub : ∀ e2 ∈ rest, e2 ∈ pq := by
    intro e2 he2
    rw [hrest] at he2
    exact erase_subset2 _ _ he2
  refine ⟨inv.start_mem, inv.goal_not_mem, inv.vis_nodup, inv.vis_allowed,
    inv.vis_chain, inv.vis_dist, ?_, ?_, inv.dist_start, inv.dist_prev, ?_, ?_⟩
  · exact fun e2 he2 => inv.pq_entry e2 (hsub e2 he2)
  · exact fun e2 he2 => inv.pq_dist e2 (hsub e2 he2)
  · intro u hu v hadj hval
    rcases inv.frontier u hu v hadj hval with h | ⟨e2, he2, hc2, hg2⟩
    · exact Or.inl h
    · by_cases hee : e2 = e
      · subst hee
        exact Or.inl (hc2 ▸ hv)
      · refine Or.inr ⟨e2, ?_, hc2, hg2⟩
        rw [hrest]
        exact (mem_erase_of_ne2 hee).mpr he2
  · intro v dv h
    rcases inv.dist_inv v dv h with h2 | ⟨e2, he2, hc2, hg2⟩
    · exact Or.inl h2
    · by_cases hee : e2 = e
      · subst hee
        exact Or.inl (hc2 ▸ hv)
      · refine Or.inr ⟨e2, ?_, hc2, hg2⟩
        rw [hrest]
        exact (mem_erase_of_ne2 hee).mpr he2

/-- The Dijkstra expansion step preserves the invariant. -/
theorem expandD_inv {bl : Grid} {start goal : Pos} {pq : List DEntry}
    {dist : Dist} {prev : Prev} {visited : List Pos}
    (inv : DInv bl start goal pq dist prev visited) {e : DEntry}
    {rest : List DEntry} (hpop : popMin dLe pq = some (e, rest))
    (hnv : e.2 ∉ visited) (hng : e.2 ≠ goal) :
    DInv bl start goal (expandD bl rest dist prev e.1 e.2).1
      (expandD bl rest dist prev e.1 e.2).2.1
      (expandD bl rest dist prev e.1 e.2).2.2 (e.2 :: visited) := by
  obtain ⟨hmem, hrestEq, _⟩ := popMin_spec dLe_trans dLe_total hpop
  obtain ⟨hgeq, hreach⟩ := popD_opt inv hpop hnv
  have hsub : ∀ e2 ∈ rest, e2 ∈ pq := by
    intro e2 he2
    rw [hrestEq] at he2
    exact erase_subset2 _ _ he2
  have hcs : e.2 ≠ start := fun he => hnv (he ▸ inv.start_mem)
  obtain ⟨dv, hdv, hdvle⟩ := inv.pq_dist e hmem
  obtain ⟨u, hpu, huvis, hadju, hvalcur, hdvu⟩ := inv.dist_prev e.2 dv hcs hdv
  have hreachu : Reach bl start u := by
    obtain ⟨l, _, _, hw, _⟩ := inv.vis_chain u huvis
    exact ⟨l.reverse, hw⟩
  have hdcurle : dE bl start e.2 ≤ dE bl start u + 1 :=
    (dE_step hreachu hadju hvalcur).2
  have hdveq : dv = dE bl start e.2 := by omega
  have hdcur : dE bl start e.2 = dE bl start u + 1 := by omega
  obtain ⟨D1, D2, D3, D4, D5, D6, D7, D8, D9⟩ :=
    @relaxD_fold bl e.1 e.2 (neighbors e.2)
      (rest, dist, prev)
  have hE : expandD bl rest dist prev e.1 e.2
      = (neighbors e.2).foldl (relaxD bl e.1 e.2) (rest, dist, prev) := rfl
  rw [hE]
  have hcurnb : e.2 ∉ neighbors e.2 := by
    intro h
    exact (adj_ne (mem_neighbors_iff.mp h)) rfl
  have hvis_keep : ∀ q, q ∈ visited ∨ q = e.2 →
      ((neighbors e.2).foldl (relaxD bl e.1 e.2) (rest, dist, prev)).2.1 q
          = dist q ∧
        ((neighbors e.2).foldl (relaxD bl e.1 e.2) (rest, dist, prev)).2.2 q
          = prev q := by
    intro q hq
    rcases hq with hq | rfl
    · by_cases hqn : q ∈ neighbors e.2
      · rcases inv.vis_allowed q hq with hvq | rfl
        · have hdq : dE bl start q ≤ e.1 + 1 := by
            have := (dE_step hreach (mem_neighbors_iff.mp hqn) hvq).2
            omega
          exact D7 q (dE bl start q) (inv.vis_dist q hq) hdq
        · exact D7 q 0 inv.dist_start (by omega)
      · exact D8 q hqn
    · exact D8 e.2 hcurnb
  refine ⟨List.mem_cons_of_mem _ inv.start_mem, ?_,
    List.nodup_cons.mpr ⟨hnv, inv.vis_nodup⟩, ?_, ?_, ?_, ?_, ?_, ?_, ?_, ?_, ?_⟩
  · intro h
    rcases List.mem_cons.mp h with h | h
    · exact hng h.symm
    · exact inv.goal_not_mem h
  · intro c hc
    rcases List.mem_cons.mp hc with rfl | hc
    · exact Or.inl hvalcur
    · exact inv.vis_allowed c hc
  · intro c hc
    rcases List.mem_cons.mp hc with rfl | hc
    · -- the freshly visited cell: extend the parent's chain
      obtain ⟨lu, hlu, hlulen, hluwalk, hlucells⟩ := inv.vis_chain u huvis
      have hlulast : lu.getLast? = some start := by
        have := hluwalk.1
        rwa [List.head?_reverse] at this
      have hlu2 : chainD ((neighbors e.2).foldl (relaxD bl e.1 e.2)
          (rest, dist, prev)).2.2 start (dE bl start u + 1) u = some lu := by
        refine chainD_congr _ _ _ hlu hlulast ?_
        intro q hq
        exact (hvis_keep q (Or.inl (hlucells q hq))).2
      refine ⟨e.2 :: lu, ?_, ?_, ?_, ?_⟩
      · rw [hdcur]
        rw [chainD, (hvis_keep e.2 (Or.inr rfl)).2, hpu]
        dsimp only
        rw [if_neg hcs, hlu2]
        rfl
      · simp only [List.length_cons, hlulen, hdcur]
      · rw [List.reverse_cons]
        exact walk_extend hluwalk hadju hvalcur
      · intro q hq
        rcases List.mem_cons.mp hq with rfl | hq
        · exact List.mem_cons_self _ _
        · exact List.mem_cons_of_mem _ (hlucells q hq)
    · obtain ⟨l, hl, hlen, hwalk, hcells⟩ := inv.vis_chain c hc
      have hlast : l.getLast? = some start := by
        have := hwalk.1
        rwa [List.head?_reverse] at this
      refine ⟨l, ?_, hlen, hwalk, fun q hq => List.mem_cons_of_mem _ (hcells q hq)⟩
      refine chainD_congr _ _ _ hl hlast ?_
      intro q hq
      exact (hvis_keep q (Or.inl (hcells q hq))).2
  · intro c hc
    rcases List.mem_cons.mp hc with rfl | hc
    · rw [(hvis_keep e.2 (Or.inr rfl)).1, hdv, hdveq]
    · rw [(hvis_keep c (Or.inl hc)).1]
      exact inv.vis_dist c hc
  · intro e2 he2
    rcases D1 e2 he2 with h | ⟨n, hn, hvn, rfl, _⟩
    · rcases inv.pq_entry e2 (hsub e2 h) with h2 | ⟨u2, hu2, h3, h4, h5⟩
      · exact Or.inl h2
      · exact Or.inr ⟨u2, List.mem_cons_of_mem _ hu2, h3, h4, h5⟩
    · refine Or.inr ⟨e.2, List.mem_cons_self _ _, mem_neighbors_iff.mp hn, hvn, ?_⟩
      show e.1 + 1 = dE bl start e.2 + 1
      omega
  · intro e2 he2
    rcases D1 e2 he2 with h | ⟨n, hn, hvn, rfl, dvn, hdvn, hlen⟩
    · obtain ⟨dv2, hdv2, hle2⟩ := inv.pq_dist e2 (hsub e2 h)
      obtain ⟨dv3, hdv3, hle3⟩ := D9 e2.2 dv2 hdv2
      exact ⟨dv3, hdv3, by omega⟩
    · exact ⟨dvn, hdvn, hlen⟩
  · rw [(hvis_keep start (Or.inl inv.start_mem)).1]
    exact inv.dist_start
  · intro v dv2 hvs hdist2
    rcases D5 v dv2 hdist2 with h2 | ⟨rfl, hmem2, hprev2, hns2, hval2⟩
    · rcases D6 v with h3 | ⟨_, _, _, hd2, hb2⟩
      · obtain ⟨u2, hpu2, hu2vis, h5, h6, h7⟩ := inv.dist_prev v dv2 hvs h2
        exact ⟨u2, by rw [h3]; exact hpu2, List.mem_cons_of_mem _ hu2vis, h5, h6, h7⟩
      · exfalso
        have hv2 : dv2 = e.1 + 1 := by
          rw [hdist2] at hd2
          simpa using hd2
        have := hb2 dv2 h2
        omega
    · refine ⟨e.2, hprev2, List.mem_cons_self _ _,
        mem_neighbors_iff.mp hns2, hval2, ?_⟩
      omega
  · intro w hw v hadjv hvalv
    rcases List.mem_cons.mp hw with rfl | hw
    · rcases D4 v (mem_neighbors_iff.mpr hadjv) hvalv with h | ⟨old, hold, hle⟩
      · refine Or.inr ⟨(e.1 + 1, v), h, rfl, ?_⟩
        show e.1 + 1 ≤ dE bl start e.2 + 1
        omega
      · rcases inv.dist_inv v old hold with h2 | ⟨e2, he2, hc2, hg2⟩
        · exact Or.inl (List.mem_cons_of_mem _ h2)
        · have hvne : v ≠ e.2 := (adj_ne hadjv).symm
          have hene : e2 ≠ e := by
            intro he
            rw [he] at hc2
            exact hvne hc2.symm
          refine Or.inr ⟨e2, D2 e2 ?_, hc2, ?_⟩
          · show e2 ∈ rest
            rw [hrestEq]
            exact (mem_erase_of_ne2 hene).mpr he2
          · omega
    · rcases inv.frontier w hw v hadjv hvalv with h | ⟨e2, he2, hc2, hg2⟩
      · exact Or.inl (List.mem_cons_of_mem _ h)
      · by_cases hee : e2 = e
        · subst hee
          exact Or.inl (hc2 ▸ List.mem_cons_self _ _)
        · refine Or.inr ⟨e2, D2 e2 ?_, hc2, hg2⟩
          show e2 ∈ rest
          rw [hrestEq]
          exact (mem_erase_of_ne2 hee).mpr he2
  · intro v dv2 hdist2
    rcases D5 v dv2 hdist2 with h2 | ⟨rfl, hmem2, _, _, _⟩
    · rcases inv.dist_inv v dv2 h2 with h3 | ⟨e2, he2, hc2, hg2⟩
      · exact Or.inl (List.mem_cons_of_mem _ h3)
      · by_cases hee : e2 = e
        · subst hee
          exact Or.inl (hc2 ▸ List.mem_cons_self _ _)
        · refine Or.inr ⟨e2, D2 e2 ?_, hc2, hg2⟩
          show e2 ∈ rest
          rw [hrestEq]
          exact (mem_erase_of_ne2 hee).mpr he2
    · exact Or.inr ⟨(e.1 + 1, v), hmem2, rfl, le_refl _⟩

theorem chainD_start (prev : Prev) (start : Pos) (fuel : Nat) :
    chainD prev start (fuel + 1) start = some [start] := by
  cases h : prev start with
  | none =>
    rw [chainD, h]
    dsimp only
    rw [if_pos rfl]
  | some q =>
    rw [chainD, h]
    dsimp only
    rw [if_pos rfl]

theorem dijkstraLoop_step_skip {bl : Grid} {goal start : Pos} {n : Nat}
    {pq : List DEntry} {dist : Dist} {prev : Prev} {visited : List Pos}
    {e : DEntry} {rest : List DEntry}
    (hpop : popMin dLe pq = some (e, rest)) (hv : e.2 ∈ visited) :
    dijkstraLoop bl goal start (n + 1) pq dist prev visited
      = dijkstraLoop bl goal start n rest dist prev visited := by
  rw [dijkstraLoop, hpop]
  simp only [if_pos hv]

theorem dijkstraLoop_step_goal {bl : Grid} {goal start : Pos} {n : Nat}
    {pq : List DEntry} {dist : Dist} {prev : Prev} {visited : List Pos}
    {e : DEntry} {rest : List DEntry}
    (hpop : popMin dLe pq = some (e, rest)) (hv : e.2 ∉ visited)
    (hg : e.2 = goal) :
    dijkstraLoop bl goal start (n + 1) pq dist prev visited
      = (chainD prev start (e.1 + 1) e.2).map List.reverse := by
  rw [dijkstraLoop, hpop]
  simp only [if_neg hv, if_pos hg]

theorem dijkstraLoop_step_expand {bl : Grid} {goal start : Pos} {n : Nat}
    {pq : List DEntry} {dist : Dist} {prev : Prev} {visited : List Pos}
    {e : DEntry} {rest : List DEntry}
    (hpop : popMin dLe pq = some (e, rest)) (hv : e.2 ∉ visited)
    (hg : e.2 ≠ goal) :
    dijkstraLoop bl goal start (n + 1) pq dist prev visited
      = dijkstraLoop bl goal start n (expandD bl rest dist prev e.1 e.2).1
          (expandD bl rest dist prev e.1 e.2).2.1
          (expandD bl rest dist prev e.1 e.2).2.2 (e.2 :: visited) := by
  rw [dijkstraLoop, hpop]
  simp only [if_neg hv, if_neg hg]

/-- The master lemma of the `dijkstra` loop: from any state satisfying
the invariant, with fuel above the termination measure, the loop
returns; the result is `[]` exactly on an unreachable goal and
otherwise an optimal walk. -/
theorem dijkstraLoop_master {bl : Grid} {start goal : Pos} (hsg : start ≠ goal) :
    ∀ (fuel : Nat) (pq : List DEntry) (dist : Dist) (prev : Prev)
      (visited : List Pos),
      DInv bl start goal pq dist prev visited →
      pq.length + 5 * (701 - visited.length) < fuel →
      ∃ l, dijkstraLoop bl goal start fuel pq dist prev visited = some l ∧
        ((l = [] ∧ ¬ Reach bl start goal) ∨
          (Walk bl start goal l ∧ l.length = dE bl start goal + 1)) := by
  intro fuel
  induction fuel with
  | zero =>
    intro pq dist prev visited _ hF
    omega
  | succ n ih =>
    intro pq dist prev visited inv hF
    cases hpop : popMin dLe pq with
    | none =>
      refine ⟨[], ?_, Or.inl ⟨rfl, exhaustD_unreach inv (popMin_eq_none.mp hpop)⟩⟩
      rw [dijkstraLoop, hpop]
    | some er =>
      obtain ⟨e, rest⟩ := er
      obtain ⟨hmem, hrestEq, _⟩ := popMin_spec dLe_trans dLe_total hpop
      have hrl : rest.length = pq.length - 1 := by
        rw [hrestEq]
        exact length_erase2 hmem
      have hhl : 1 ≤ pq.length := List.length_pos.mpr (List.ne_nil_of_mem hmem)
      by_cases hv : e.2 ∈ visited
      · rw [dijkstraLoop_step_skip hpop hv]
        exact ih rest dist prev visited (skipD_inv inv hpop hv) (by omega)
      · by_cases hg : e.2 = goal
        · -- the goal is popped: reconstruct the optimal path from prev
          obtain ⟨hgeq, hreach⟩ := popD_opt inv hpop hv
          have hcs : e.2 ≠ start := fun he => hv (he ▸ inv.start_mem)
          obtain ⟨dv, hdv, hdvle⟩ := inv.pq_dist e hmem
          obtain ⟨u, hpu, huvis, hadju, hval, hdvu⟩ :=
            inv.dist_prev e.2 dv hcs hdv
          have hreachu : Reach bl start u := by
            obtain ⟨l, _, _, hw, _⟩ := inv.vis_chain u huvis
            exact ⟨l.reverse, hw⟩
          have hle := (dE_step hreachu hadju hval).2
          have hdcur : dE bl start e.2 = dE bl start u + 1 := by omega
          obtain ⟨lu, hlu, hlulen, hluwalk, _⟩ := inv.vis_chain u huvis
          have hch : chainD prev start (e.1 + 1) e.2 = some (e.2 :: lu) := by
            rw [hgeq, hdcur, chainD, hpu]
            dsimp only
            rw [if_neg hcs, hlu]
            rfl
          refine ⟨(e.2 :: lu).reverse, ?_, Or.inr ⟨?_, ?_⟩⟩
          · rw [dijkstraLoop_step_goal hpop hv hg, hch]
            rfl
          · have hw2 := walk_extend hluwalk hadju hval
            rw [List.reverse_cons]
            exact hg ▸ hw2
          · rw [List.length_reverse, List.length_cons, hlulen, ← hg, hdcur]
        · -- ordinary expansion
          rw [dijkstraLoop_step_expand hpop hv hg]
          have inv2 := expandD_inv inv hpop hv hg
          have hv701 : (e.2 :: visited).length ≤ 701 :=
            visited_card_le inv2.vis_nodup inv2.vis_allowed
          have hlen4 : (expandD bl rest dist prev e.1 e.2).1.length
              ≤ rest.length + 4 := by
            obtain ⟨_, _, D3, _, _, _, _, _, _⟩ :=
              @relaxD_fold bl e.1 e.2 (neighbors e.2) (rest, dist, prev)
            simpa [neighbors] using D3
          refine ih _ _ _ _ inv2 ?_
          simp only [List.length_cons] at hv701 ⊢
          omega
  -- end of induction

theorem dijkstra_master (bl : Grid) (s g : Pos) :
    ∃ l, dijkstra bl s g = some l ∧
      ((s = g ∧ l = [s]) ∨ (l = [] ∧ ¬ Reach bl s g) ∨
        (s ≠ g ∧ Walk bl s g l ∧ l.length = dE bl s g + 1)) := by
  by_cases hsg : s = g
  · refine ⟨[s], ?_, Or.inl ⟨hsg, rfl⟩⟩
    rw [dijkstra, if_pos hsg]
  · -- run the first iteration by hand, establish the invariant, recurse
    have hstep : dijkstra bl s g
        = dijkstraLoop bl g s FUEL [(0, s)]
            (fun p => if p = s then some 0 else none) (fun _ => none) [] := by
      rw [dijkstra, if_neg hsg]
    have hpop0 : popMin dLe [((0, s) : DEntry)] = some ((0, s), []) := by
      unfold popMin
      rw [show minimumBy dLe [((0, s) : DEntry)] = some (0, s) from rfl]
      dsimp only
      rw [erase_cons_head2]
    have hFUEL : FUEL = 3999 + 1 := rfl
    have hexp : dijkstraLoop bl g s FUEL [(0, s)]
        (fun p => if p = s then some 0 else none) (fun _ => none) []
        = dijkstraLoop bl g s 3999
            (expandD bl [] (fun p => if p = s then some 0 else none)
              (fun _ => none) 0 s).1
            (expandD bl [] (fun p => if p = s then some 0 else none)
              (fun _ => none) 0 s).2.1
            (expandD bl [] (fun p => if p = s then some 0 else none)
              (fun _ => none) 0 s).2.2 [s] := by
      rw [hFUEL]
      exact dijkstraLoop_step_expand hpop0 (by simp) hsg
    obtain ⟨D1, D2, D3, D4, D5, D6, D7, D8, D9⟩ :=
      @relaxD_fold bl 0 s (neighbors s)
        ([], fun p => if p = s then some 0 else none, fun _ => none)
    have hds : dE bl s s = 0 := dE_self bl s
    have hsnb : s ∉ neighbors s := by
      intro h
      exact (adj_ne (mem_neighbors_iff.mp h)) rfl
    have inv1 : DInv bl s g
        (expandD bl [] (fun p => if p = s then some 0 else none)
          (fun _ => none) 0 s).1
        (expandD bl [] (fun p => if p = s then some 0 else none)
          (fun _ => none) 0 s).2.1
        (expandD bl [] (fun p => if p = s then some 0 else none)
          (fun _ => none) 0 s).2.2 [s] := by
      refine ⟨List.mem_singleton_self s, ?_, List.nodup_singleton s, ?_, ?_,
        ?_, ?_, ?_, ?_, ?_, ?_, ?_⟩
      · intro h
        rw [List.mem_singleton] at h
        exact hsg h.symm
      · intro c hc
        rw [List.mem_singleton] at hc
        exact Or.inr hc
      · intro c hc
        rw [List.mem_singleton] at hc
        subst hc
        refine ⟨[c], ?_, by simp [hds], by simpa using walk_single bl c, ?_⟩
        · rw [hds]
          exact chainD_start _ c 0
        · intro q hq
          simpa using hq
      · intro c hc
        rw [List.mem_singleton] at hc
        subst hc
        show ((neighbors c).foldl (relaxD bl 0 c)
          ([], fun p => if p = c then some 0 else none, fun _ => none)).2.1 c
            = some (dE bl c c)
        rw [(D8 c hsnb).1]
        dsimp only
        rw [if_pos rfl, hds]
      · intro e2 he2
        rcases D1 e2 he2 with h | ⟨m, hm, hvm, rfl, _⟩
        · simp at h
        · refine Or.inr ⟨s, List.mem_singleton_self s,
            mem_neighbors_iff.mp hm, hvm, ?_⟩
          show 0 + 1 = dE bl s s + 1
          rw [hds]
      · intro e2 he2
        rcases D1 e2 he2 with h | ⟨m, hm, hvm, rfl, dvn, hdvn, hlen⟩
        · simp at h
        · exact ⟨dvn, hdvn, hlen⟩
      · show ((neighbors s).foldl (relaxD bl 0 s)
          ([], fun p => if p = s then some 0 else none, fun _ => none)).2.1 s
            = some 0
        rw [(D8 s hsnb).1]
        dsimp only
        rw [if_pos rfl]
      · intro v dv hvs hdist
        rcases D5 v dv hdist with h2 | ⟨rfl, hmem2, hprev2, hns2, hval2⟩
        · have h3 : (if v = s then (some 0 : Option Nat) else none)
              = some dv := h2
          rw [if_neg hvs] at h3
          simp at h3
        · refine ⟨s, hprev2, List.mem_singleton_self s,
            mem_neighbors_iff.mp hns2, hval2, ?_⟩
          show 0 + 1 = dE bl s s + 1
          rw [hds]
      · intro u hu v hadjv hvalv
        rw [List.mem_singleton] at hu
        rcases D4 v (mem_neighbors_iff.mpr (hu ▸ hadjv)) hvalv
          with h | ⟨old, hold, hle⟩
        · refine Or.inr ⟨(0 + 1, v), h, rfl, ?_⟩
          show 0 + 1 ≤ dE bl s u + 1
          omega
        · have hvs : v ≠ s := by
            rw [← hu]
            exact (adj_ne hadjv).symm
          have hold2 : (if v = s then (some 0 : Option Nat) else none)
              = some old := hold
          rw [if_neg hvs] at hold2
          simp at hold2
      · intro v dv hdist
        rcases D5 v dv hdist with h2 | ⟨rfl, hmem2, _, _, _⟩
        · by_cases hvs : v = s
          · exact Or.inl (hvs ▸ List.mem_singleton_self s)
          · have h3 : (if v = s then (some 0 : Option Nat) else none)
                = some dv := h2
            rw [if_neg hvs] at h3
            simp at h3
        · exact Or.inr ⟨(0 + 1, v), hmem2, rfl, le_refl _⟩
    have hF1 : (expandD bl [] (fun p => if p = s then some 0 else none)
          (fun _ => none) 0 s).1.length
        + 5 * (701 - ([s] : List Pos).length) < 3999 := by
      have h4 : (expandD bl [] (fun p => if p = s then some 0 else none)
          (fun _ => none) 0 s).1.length ≤ 4 := by
        simpa [neighbors] using D3
      simp only [List.length_singleton]
      omega
    obtain ⟨l, hl, hres⟩ := dijkstraLoop_master hsg 3999 _ _ _ _ inv1 hF1
    refine ⟨l, ?_, ?_⟩
    · rw [hstep, hexp, hl]
    · rcases hres with h | h
      · exact Or.inr (Or.inl h)
      · exact Or.inr (Or.inr ⟨hsg, h⟩)

/-! ### Consequences for the two searches together -/

theorem walk_goal_valid {bl : Grid} {s g : Pos} {l : List Pos}
    (hw : Walk bl s g l) (hne : s ≠ g) : validP bl g := by
  obtain ⟨h1, h2, _, h4⟩ := hw
  match l with
  | [] => simp at h1
  | [x] =>
    simp only [List.head?_cons, Option.some.injEq] at h1
    simp only [List.getLast?_singleton, Option.some.injEq] at h2
    exact absurd (h1.symm.trans h2) hne
  | x :: y :: t =>
    apply h4
    show g ∈ y :: t
    apply List.mem_of_mem_getLast?
    rw [List.getLast?_cons_cons] at h2
    rw [Option.mem_def]
    exact h2

theorem findPath_total (bl : Grid) (alg : String) (s g : Pos) :
    ∃ l, findPath bl alg s g = some l ∧
      ((s = g ∧ l = [s]) ∨ (l = [] ∧ ¬ Reach bl s g) ∨
        (s ≠ g ∧ Walk bl s g l ∧ l.length = dE bl s g + 1)) := by
  rw [findPath]
  by_cases ha : alg = "astar"
  · rw [if_pos ha]
    exact astar_master bl s g
  · rw [if_neg ha]
    exact dijkstra_master bl s g

/-- C2.  For every grid and every (start, goal) pair with the goal
reachable from the start, the A* variant and the Dijkstra variant of
`findPath` return paths of equal length. -/
theorem c2_equal_length (bl : Grid) (s g : Pos) (hr : Reach bl s g) :
    ∃ l1 l2, findPath bl "astar" s g = some l1 ∧
      findPath bl "dijkstra" s g = some l2 ∧ l1.length = l2.length := by
  obtain ⟨l1, h1, hres1⟩ := astar_master bl s g
  obtain ⟨l2, h2, hres2⟩ := dijkstra_master bl s g
  refine ⟨l1, l2, ?_, ?_, ?_⟩
  · rw [findPath, if_pos rfl]
    exact h1
  · rw [findPath, if_neg (by decide)]
    exact h2
  · rcases hres1 with ⟨hsg, rfl⟩ | ⟨rfl, hnr⟩ | ⟨hsg, _, hlen1⟩
    · rcases hres2 with ⟨_, rfl⟩ | ⟨_, hnr⟩ | ⟨hsg2, _, _⟩
      · rfl
      · exact absurd hr hnr
      · exact absurd hsg hsg2
    · exact absurd hr hnr
    · rcases hres2 with ⟨hsg2, _⟩ | ⟨_, hnr⟩ | ⟨_, _, hlen2⟩
      · exact absurd hsg2 hsg
      · exact absurd hr hnr
      · rw [hlen1, hlen2]

theorem c2_equal_length_witness :
    Reach (fun _ => false) (0, 0) (1, 0) ∧
      ∃ l1 l2, findPath (fun _ => false) "astar" (0, 0) (1, 0) = some l1 ∧
        findPath (fun _ => false) "dijkstra" (0, 0) (1, 0) = some l2 ∧
        l1.length = l2.length :=
  ⟨⟨[(0, 0), (1, 0)], by decide⟩,
   c2_equal_length (fun _ => false) (0, 0) (1, 0) ⟨[(0, 0), (1, 0)], by decide⟩⟩

/-- C7.  For every grid and every (start, goal) pair with the goal
unreachable from the start, `findPath` returns the empty sequence under
both algorithms, as a normal non-exceptional result. -/
theorem c7_unreachable_empty (bl : Grid) (s g : Pos) (alg : String)
    (hnr : ¬ Reach bl s g) :
    findPath bl alg s g = some [] := by
  have hsg : s ≠ g := fun h => hnr (h ▸ reach_self bl s)
  obtain ⟨l, hl, hres⟩ := findPath_total bl alg s g
  rcases hres with ⟨h, _⟩ | ⟨rfl, _⟩ | ⟨_, hw, _⟩
  · exact absurd h hsg
  · exact hl
  · exact absurd ⟨l, hw⟩ hnr

theorem c7_unreachable_empty_witness :
    ¬ Reach (fun p => decide (p = ((1 : Int), (0 : Int)))) (0, 0) (1, 0) ∧
      findPath (fun p => decide (p = ((1 : Int), (0 : Int)))) "dijkstra"
        (0, 0) (1, 0) = some [] := by
  have hnr : ¬ Reach (fun p => decide (p = ((1 : Int), (0 : Int)))) (0, 0) (1, 0) := by
    rintro ⟨l, hw⟩
    exact absurd (walk_goal_valid hw (by decide)) (by decide)
  exact ⟨hnr, c7_unreachable_empty _ _ _ _ hnr⟩

/-! ### Frame-builder characterisation (claims C5 and C10) -/

theorem dwellSF_eq (mode : String) (due : List Pos) (endP : Option Pos)
    (b : Pos) :
    (if endP ≠ some b then
      (if mode = "nn" then dwellNN due b
       else if mode = "patrol" then dwellPatrol due b
       else [])
     else []) = List.replicate (dwellCountSF mode due endP b) b := by
  by_cases h1 : endP = some b
  · simp [dwellCountSF, h1]
  · by_cases h2 : mode = "nn"
    · by_cases h3 : b ∈ due
      · simp [dwellCountSF, dwellNN, h1, h2, h3]
      · simp [dwellCountSF, dwellNN, h1, h2, h3]
    · by_cases h4 : mode = "patrol"
      · simp [dwellCountSF, dwellPatrol, h1, h2, h4]
      · simp [dwellCountSF, h1, h2, h4]

theorem dwellMF_eq (mode : String) (due : List Pos) (b : Pos) :
    (if b ∈ due then List.replicate (max 1 (SERVICE_PAUSE_SEC * FPS)) b
     else if mode = "patrol" then
      List.replicate (max 1 (QUICK_CHECK_SEC * FPS)) b
     else []) = List.replicate (dwellCountMF mode due b) b := by
  by_cases h1 : b ∈ due
  · simp [dwellCountMF, h1]
  · by_cases h2 : mode = "patrol" <;> simp [dwellCountMF, h1, h2]

theorem build_path_fold_eq (bl : Grid) (due : List Pos) (endP : Option Pos)
    (mode alg : String) :
    ∀ (pairs : List (Pos × Pos)) (fs0 : List Pos),
      pairs.foldl
        (fun acc ab =>
          match acc with
          | none => none
          | some fs =>
            match findPath bl alg ab.1 ab.2 with
            | none => none
            | some seg =>
              if seg.length ≤ 1 then some fs
              else
                some (fs ++ seg.drop 1 ++
                  (if endP ≠ some ab.2 then
                    (if mode = "nn" then dwellNN due ab.2
                     else if mode = "patrol" then dwellPatrol due ab.2
                     else [])
                   else [])))
        (some fs0)
        = some (fs0 ++ pairs.flatMap (fun ab =>
            if (segOf bl alg ab.1 ab.2).length ≤ 1 then []
            else (segOf bl alg ab.1 ab.2).drop 1 ++
              List.replicate (dwellCountSF mode due endP ab.2) ab.2)) := by
  intro pairs
  induction pairs with
  | nil =>
    intro fs0
    simp
  | cons ab rest ih =>
    intro fs0
    rw [List.foldl_cons]
    obtain ⟨seg, hseg, _⟩ := findPath_total bl alg ab.1 ab.2
    have hsegof : segOf bl alg ab.1 ab.2 = seg := by
      rw [segOf, hseg]
      rfl
    dsimp only
    rw [hseg]
    dsimp only
    rw [List.flatMap_cons, hsegof]
    by_cases hlen : seg.length ≤ 1
    · rw [if_pos hlen, if_pos hlen, ih]
      simp
    · rw [if_neg hlen, if_neg hlen, dwellSF_eq, ih]
      simp

theorem build_frames_fold_eq (bl : Grid) (due : List Pos) (mode : String) :
    ∀ (pairs : List (Pos × Pos)) (fs0 : List Pos),
      pairs.foldl
        (fun acc ab =>
          match acc with
          | none => none
          | some fs =>
            match astar bl ab.1 ab.2 with
            | none => none
            | some seg =>
              if seg.length ≤ 1 then some fs
              else
                some (fs ++ seg.drop 1 ++
                  (if ab.2 ∈ due then
                    List.replicate (max 1 (SERVICE_PAUSE_SEC * FPS)) ab.2
                   else if mode = "patrol" then
                    List.replicate (max 1 (QUICK_CHECK_SEC * FPS)) ab.2
                   else [])))
        (some fs0)
        = some (fs0 ++ pairs.flatMap (fun ab =>
            if (segOf bl "astar" ab.1 ab.2).length ≤ 1 then []
            else (segOf bl "astar" ab.1 ab.2).drop 1 ++
              List.replicate (dwellCountMF mode due ab.2) ab.2)) := by
  intro pairs
  induction pairs with
  | nil =>
    intro fs0
    simp
  | cons ab rest ih =>
    intro fs0
    rw [List.foldl_cons]
    obtain ⟨seg, hseg, _⟩ := findPath_total bl "astar" ab.1 ab.2
    have hseg2 : astar bl ab.1 ab.2 = some seg := by
      rw [← hseg, findPath, if_pos rfl]
    have hsegof : segOf bl "astar" ab.1 ab.2 = seg := by
      rw [segOf, hseg]
      rfl
    dsimp only
    rw [hseg2]
    dsimp only
    rw [List.flatMap_cons, hsegof]
    by_cases hlen : seg.length ≤ 1
    · rw [if_pos hlen, if_pos hlen, ih]
      simp
    · rw [if_neg hlen, if_neg hlen, dwellMF_eq, ih]
      simp

theorem seg_tail_valid (bl : Grid) (alg : String) (a b : Pos)
    (h : ¬ (segOf bl alg a b).length ≤ 1) :
    (∀ p ∈ (segOf bl alg a b).drop 1, validP bl p) ∧ validP bl b := by
  obtain ⟨seg, hseg, hres⟩ := findPath_total bl alg a b
  have hsegof : segOf bl alg a b = seg := by
    rw [segOf, hseg]
    rfl
  rw [hsegof] at h ⊢
  rcases hres with ⟨_, rfl⟩ | ⟨rfl, _⟩ | ⟨hne, hw, _⟩
  · simp at h
  · simp at h
  · refine ⟨?_, walk_goal_valid hw hne⟩
    rw [List.drop_one]
    exact hw.2.2.2

/-- C5.  Counterexample: with the round-trip end configured
(`END_POS = (1, 19)`), an empty DUE set and Full-Patrol mode, arriving
at the end waypoint via the two-cell segment from `(2, 19)` produces a
single frame and no trailing dwell, although the claim demands
`max 1 (QUICK_CHECK_SEC * FPS)` dwell copies at every arrival including
the configured end waypoint. -/
theorem c5_counterexample :
    build_path (fun _ => false) [] END_POS [(2, 19), (1, 19)] "patrol" "astar"
        = some [((1 : Int), (19 : Int))] ∧
      ([((1 : Int), (19 : Int))] : List Pos).length
        < 1 + max 1 (QUICK_CHECK_SEC * FPS) :=
  ⟨by decide, by decide⟩

/-- C5 (amended).  Both frame builders are totally characterised: each
consecutive waypoint pair contributes nothing when its segment has
length ≤ 1, and otherwise the segment minus its head followed by
exactly `dwellCountSF` (single-floor: zero at the configured end
waypoint) resp. `dwellCountMF` (multi-floor: no end guard) copies of
the arrival waypoint. -/
theorem c5_dwell_characterisation (bl : Grid) (due : List Pos)
    (endP : Option Pos) (route : List Pos) (mode alg : String) :
    build_path bl due endP route mode alg
        = some (if route.length < 2 then []
            else (route.dropLast.zip route.tail).flatMap (fun ab =>
              if (segOf bl alg ab.1 ab.2).length ≤ 1 then []
              else (segOf bl alg ab.1 ab.2).drop 1 ++
                List.replicate (dwellCountSF mode due endP ab.2) ab.2)) ∧
      build_frames bl route due mode
        = some (if route.length < 2 then []
            else (route.dropLast.zip route.tail).flatMap (fun ab =>
              if (segOf bl "astar" ab.1 ab.2).length ≤ 1 then []
              else (segOf bl "astar" ab.1 ab.2).drop 1 ++
                List.replicate (dwellCountMF mode due ab.2) ab.2)) := by
  constructor
  · rw [build_path]
    by_cases hlt : route.length < 2
    · rw [if_pos hlt, if_pos hlt]
    · rw [if_neg hlt, if_neg hlt, build_path_fold_eq]
      simp
  · rw [build_frames]
    by_cases hlt : route.length < 2
    · rw [if_pos hlt, if_pos hlt]
    · rw [if_neg hlt, if_neg hlt, build_frames_fold_eq]
      simp

/-- C10.  Both frame builders always return, every frame they produce
is an in-bounds unblocked cell (dwell repetitions included) even when
the route's own start is blocked or a segment's goal is unreachable,
and a route with fewer than two waypoints yields the empty frame
sequence. -/
theorem c10_frames_valid (bl : Grid) (due : List Pos) (endP : Option Pos)
    (route : List Pos) (mode alg : String) :
    (∃ fs, build_path bl due endP route mode alg = some fs ∧
      (∀ p ∈ fs, validP bl p) ∧ (route.length < 2 → fs = [])) ∧
    (∃ fs, build_frames bl route due mode = some fs ∧
      (∀ p ∈ fs, validP bl p) ∧ (route.length < 2 → fs = [])) := by
  constructor
  · rw [build_path]
    by_cases hlt : route.length < 2
    · rw [if_pos hlt]
      exact ⟨[], rfl, by simp, fun _ => rfl⟩
    · rw [if_neg hlt, build_path_fold_eq]
      refine ⟨_, rfl, ?_, fun h => absurd h hlt⟩
      intro p hp
      rw [List.nil_append, List.mem_flatMap] at hp
      obtain ⟨ab, _, hpg⟩ := hp
      by_cases hc : (segOf bl alg ab.1 ab.2).length ≤ 1
      · rw [if_pos hc] at hpg
        simp at hpg
      · rw [if_neg hc] at hpg
        rcases List.mem_append.mp hpg with h | h
        · exact (seg_tail_valid bl alg ab.1 ab.2 hc).1 p h
        · rw [List.eq_of_mem_replicate h]
          exact (seg_tail_valid bl alg ab.1 ab.2 hc).2
  · rw [build_frames]
    by_cases hlt : route.length < 2
    · rw [if_pos hlt]
      exact ⟨[], rfl, by simp, fun _ => rfl⟩
    · rw [if_neg hlt, build_frames_fold_eq]
      refine ⟨_, rfl, ?_, fun h => absurd h hlt⟩
      intro p hp
      rw [List.nil_append, List.mem_flatMap] at hp
      obtain ⟨ab, _, hpg⟩ := hp
      by_cases hc : (segOf bl "astar" ab.1 ab.2).length ≤ 1
      · rw [if_pos hc] at hpg
        simp at hpg
      · rw [if_neg hc] at hpg
        rcases List.mem_append.mp hpg with h | h
        · exact (seg_tail_valid bl "astar" ab.1 ab.2 hc).1 p h
        · rw [List.eq_of_mem_replicate h]
          exact (seg_tail_valid bl "astar" ab.1 ab.2 hc).2

end WasteWatcher
